import Mathlib

/-!
Verification of the OpenSkills agent-skill framework.

This file gives a shallow embedding, in Lean 4, of the progressive-disclosure
skill resolution and conversation orchestration engine of the OpenSkills
repository, and proves (or refutes) the behavioural claims collected for it.

Embedded components (each definition is translated from the named Python
source):
* `openskills/core/executor.py`    — local script executor (timeout / exit code
  handling, output capping);
* `openskills/llm/prompt_builder.py` — system-prompt assembly and
  `[INVOKE:...]` script-invocation extraction;
* `openskills/core/matcher.py`     — the heuristic skill matcher with its
  CJK-aware tokenizer;
* `openskills/core/parser.py`      — resource declaration parsing and
  reference auto-discovery;
* `openskills/core/manager.py`     — skill discovery over directories;
* `openskills/sandbox/manager.py`  — the sandbox executor pool (LRU cache);
* `openskills/agent.py`            — the conversation orchestrator
  (reference-loading policy, cross-turn summaries, system prompt build).

External collaborators (the LLM, the filesystem, subprocesses, the remote
sandbox service) are modelled as explicit oracle parameters: a subprocess is a
`ProcBehavior` value, the LLM is a function returning `Option String`
(`none` = the call raised), file loads are `String → Option String`.
Python floats are embedded as `ℚ`: every score in the matcher is a small
decimal constant and all comparisons proved here have gaps far above any
floating-point rounding, so the order structure is identical.
-/

namespace OpenSkills

/-! ## Python-style string primitives

Helpers mirroring the Python string operations used by the sources
(`in`, truthiness, `str.join`, `Path.suffix`). -/

/-- Boolean infix test on lists: `hasInfix pat l` is true iff `pat` occurs
as a contiguous sublist of `l`. This is the semantics of Python's
`pat in l` on strings, applied below through `strContains`. -/
def hasInfix (pat : List Char) : List Char → Bool
  | [] => pat.isEmpty
  | l@(_ :: rest) => pat.isPrefixOf l || hasInfix pat rest

/-- Python `pat in hay` for strings: `pat` occurs as a substring of `hay`. -/
def strContains (hay pat : String) : Bool :=
  hasInfix pat.toList hay.toList

/-- Python truthiness of an optional string (`None` and `""` are falsy);
used for the `if content:` guards in the agent and prompt builder. -/
def pyTruthy : Option String → Bool
  | none => false
  | some s => !(s == "")

/-- Python `sep.join(parts)`. -/
def pyJoin (sep : String) : List String → String
  | [] => ""
  | [s] => s
  | s :: rest => s ++ sep ++ pyJoin sep rest

/-- Python `s.lower()` (character-wise lowering, as core
`String.toLower` does, but by structural recursion over the character
list so that proofs can evaluate it). -/
def pyLower (s : String) : String :=
  String.mk (s.toList.map Char.toLower)

/-- Python `s.strip()`: remove leading and trailing whitespace. -/
def pyTrim (s : String) : String :=
  String.mk (((s.toList.dropWhile Char.isWhitespace).reverse.dropWhile
    Char.isWhitespace).reverse)

/-- Python `s[:n]` (character slice). -/
def pyTake (s : String) (n : Nat) : String :=
  String.mk (s.toList.take n)

/-- Python `s.startswith(pre)`. -/
def strStartsWith (s pre : String) : Bool :=
  pre.toList.isPrefixOf s.toList

/-- Python `s.replace(a, b)` for one-character pattern and replacement
(the only form the sources use). -/
def pyReplaceChar (s : String) (a b : Char) : String :=
  String.mk (s.toList.map fun c => if c = a then b else c)

/-- Splitting accumulator for `pySplitNl`. -/
def pySplitNlAux (acc : List Char) : List Char → List String
  | [] => [String.mk acc.reverse]
  | c :: rest =>
    if c = '\n' then String.mk acc.reverse :: pySplitNlAux [] rest
    else pySplitNlAux (c :: acc) rest

/-- Python `s.split("\n")` (empty pieces preserved; `""` yields `[""]`). -/
def pySplitNl (s : String) : List String :=
  pySplitNlAux [] s.toList

/-- Index of the last `.` in a list of characters, if any. -/
def lastDotIdx : List Char → Option Nat
  | [] => none
  | c :: rest =>
    match lastDotIdx rest with
    | some i => some (i + 1)
    | none => if c = '.' then some 0 else none

/-- Python `pathlib.Path(name).suffix` for a bare file name: the extension
from the final dot (inclusive), empty when there is no dot or the only dot
is leading (hidden files). -/
def pathSuffix (name : String) : String :=
  match lastDotIdx name.toList with
  | none => ""
  | some 0 => ""
  | some i => String.mk (name.toList.drop i)

/-! ## Local script executor — `openskills/core/executor.py`

`ScriptExecutor.execute` / `_run_process`.  The subprocess itself is an
external collaborator, embedded as the `ProcBehavior` the process would
exhibit, plus a flag `timedOut` saying whether the `asyncio.wait_for`
wall-clock deadline fired before the process finished. -/

/-- Observable behaviour of the child process (exit status and captured
output), supplied as an oracle. -/
structure ProcBehavior where
  returncode : Int
  stdout : String
  stderr : String
deriving DecidableEq, Repr

/-- Outcome of `ScriptExecutor.execute`: each failure constructor mirrors
one Python exception type raised by the source (`FileNotFoundError`,
`ValueError`, `ScriptExecutionError`), carrying the same payload fields. -/
inductive ExecOutcome where
  | fileNotFound (message : String)
  | unsupportedType (message : String)
  | scriptExecutionError (message : String) (returncode : Int) (stderr : String)
  | ok (output : String)
deriving DecidableEq, Repr

/-- The Python exception class name an outcome raises, `none` for success.
Both the timeout branch and the non-zero-exit branch of the source raise
`ScriptExecutionError`. -/
def execErrorClass : ExecOutcome → Option String
  | .fileNotFound _ => some "FileNotFoundError"
  | .unsupportedType _ => some "ValueError"
  | .scriptExecutionError _ _ _ => some "ScriptExecutionError"
  | .ok _ => none

/-- Keys of `ScriptExecutor.SUPPORTED_EXTENSIONS`. -/
def SUPPORTED_EXTENSIONS : List String := [".py", ".sh", ".bash", ".js", ".ts"]

/-- Embeds `ScriptExecutor._run_process`: non-zero exit raises
`ScriptExecutionError` with the exit code and decoded stderr; otherwise the
stdout is returned, truncated at `maxOutputSize` with a marker. -/
def runProcess (proc : ProcBehavior) (maxOutputSize : Nat) : ExecOutcome :=
  if proc.returncode ≠ 0 then
    .scriptExecutionError
      ("Script failed with exit code " ++ toString proc.returncode)
      proc.returncode proc.stderr
  else if proc.stdout.length > maxOutputSize then
    .ok (pyTake proc.stdout maxOutputSize ++ "\n... (output truncated)")
  else
    .ok proc.stdout

/-- Embeds `ScriptExecutor.execute`: existence and extension gates, then
`timeout = timeout or self.default_timeout` (Python: `0`/`None` fall back to
the default), then either the wrapped `asyncio.TimeoutError` branch
(re-raised as `ScriptExecutionError` with returncode `-1`) or the process
result. -/
def execute (fileExists : Bool) (suffix : String) (timeoutArg : Option Nat)
    (defaultTimeout : Nat) (timedOut : Bool) (proc : ProcBehavior)
    (maxOutputSize : Nat) : ExecOutcome :=
  if !fileExists then
    .fileNotFound "Script not found"
  else if !(SUPPORTED_EXTENSIONS.contains (pyLower suffix)) then
    .unsupportedType ("Unsupported script type: " ++ pyLower suffix)
  else
    let timeout := match timeoutArg with
      | some t => if t ≠ 0 then t else defaultTimeout
      | none => defaultTimeout
    if timedOut then
      .scriptExecutionError
        ("Script execution timed out after " ++ toString timeout ++ " seconds")
        (-1) ""
    else
      runProcess proc maxOutputSize

/-! ## Character classes for the matcher and invocation regexes

The sources use Python regexes over Unicode strings.  `isCJKChar` is the
character class `[一-鿿぀-ヿ가-힯]` of
`matcher.py`.  `isWordChar` embeds Python's `\w` (underscore plus Unicode
alphanumerics, per `str.isalnum`) restricted to the alphabet this
development works over: ASCII, and the three CJK blocks of `isCJKChar`.
Inside those blocks the code points that are *not* matched by Python's
`\w` are the kana punctuation/markers U+3040 (unassigned), U+3097–U+309C
(the unassigned pair U+3097–U+3098, the combining sound marks
U+3099–U+309A of category Mn, and the spacing sound marks U+309B–U+309C),
U+30A0 (katakana-hiragana double hyphen), U+30FB (katakana middle dot),
and the unassigned tail U+D7A4–U+D7AF of the hangul block. -/

/-- The CJK character class of `SkillMatcher._tokenize`. -/
def isCJKChar (c : Char) : Bool :=
  (0x4e00 ≤ c.toNat && c.toNat ≤ 0x9fff) ||
  (0x3040 ≤ c.toNat && c.toNat ≤ 0x30ff) ||
  (0xac00 ≤ c.toNat && c.toNat ≤ 0xd7af)

/-- Code points inside the CJK ranges above that Python's `\w` does NOT
match (non-alphanumeric or unassigned). -/
def nonWordCJK (c : Char) : Bool :=
  c.toNat = 0x3040 || (0x3097 ≤ c.toNat && c.toNat ≤ 0x309c) ||
  c.toNat = 0x30a0 || c.toNat = 0x30fb ||
  (0xd7a4 ≤ c.toNat && c.toNat ≤ 0xd7af)

/-- Python's `\w` (with `re.UNICODE`) on the modelled alphabet. -/
def isWordChar (c : Char) : Bool :=
  c.isAlphanum || c = '_' || (isCJKChar c && !nonWordCJK c)

/-! ## Script-invocation extraction — `openskills/llm/prompt_builder.py`

`PromptBuilder.extract_script_invocations` runs
`re.findall(r"\[INVOKE:(\w+)(?:\((.*?)\))?\]", text)` and returns
`(name, args or "")` pairs.  The scanner below implements exactly that
pattern's matching semantics: a literal `[INVOKE:` tag, a maximal non-empty
run of word characters (with the regex's backtracking, `\w+` can only
succeed on the maximal run since any shorter run is still followed by a
word character, which matches neither `(` nor `]`), then either a literal
`]`, or a lazily-matched parenthesised argument ending at the first `)]`
with no newline before it (`.` does not match `\n`).  `re.findall` resumes
after the end of a match, and one character further on a failed start. -/

/-- Longest prefix of word characters and the remainder. -/
def takeWordChars : List Char → List Char × List Char
  | [] => ([], [])
  | c :: rest =>
    if isWordChar c then
      let (w, r) := takeWordChars rest
      (c :: w, r)
    else ([], c :: rest)

/-- Lazy match of `(.*?)\)\]`: collect characters up to the first `)]`,
failing on a newline or the end of input (Python's `.` excludes `\n`). -/
def scanArgs (acc : List Char) : List Char → Option (String × List Char)
  | ')' :: ']' :: rest => some (String.mk acc.reverse, rest)
  | '\n' :: _ => none
  | c :: rest => scanArgs (c :: acc) rest
  | [] => none

/-- One left-to-right scan of `re.findall` for the invocation pattern,
driven by a fuel argument bounding the number of consumed characters. -/
def extractAux : Nat → List Char → List (String × String)
  | 0, _ => []
  | _, [] => []
  | fuel + 1, text@(_ :: rest) =>
    if "[INVOKE:".toList.isPrefixOf text then
      let afterTag := text.drop 8
      let (nameChars, after) := takeWordChars afterTag
      if nameChars.isEmpty then extractAux fuel rest
      else
        match after with
        | ']' :: rest2 =>
          (String.mk nameChars, "") :: extractAux fuel rest2
        | '(' :: rest2 =>
          match scanArgs [] rest2 with
          | some (args, rest3) =>
            (String.mk nameChars, args) :: extractAux fuel rest3
          | none => extractAux fuel rest
        | _ => extractAux fuel rest
    else extractAux fuel rest

/-- Embeds `PromptBuilder.extract_script_invocations`. -/
def extract_script_invocations (text : String) : List (String × String) :=
  extractAux text.toList.length text.toList

/-! ## Skill matcher — `openskills/core/matcher.py`

Scores are Python floats; they are embedded as rationals (see the header
note).  `SkillMetadata` is `openskills/models/metadata.py` restricted to
the fields the matcher reads. -/

/-- Embeds `SkillMetadata` (layer 1). -/
structure SkillMetadata where
  name : String
  description : String
  version : String := "1.0.0"
  triggers : List String := []
  author : Option String := none
  tags : List String := []
deriving DecidableEq, Repr

/-- Embeds `MatchResult` of `matcher.py`. -/
structure MatchResult where
  metadata : SkillMetadata
  score : ℚ
  matched_by : String
deriving DecidableEq, Repr

/-- Scoring weights of `SkillMatcher`. -/
def EXACT_TRIGGER_SCORE : ℚ := 1
/-- Scoring weight for a partial (substring / word-subset) trigger match. -/
def PARTIAL_TRIGGER_SCORE : ℚ := 0.8
/-- Scoring weight for a name match. -/
def NAME_MATCH_SCORE : ℚ := 0.7
/-- Scoring weight for a description-keyword match. -/
def DESCRIPTION_MATCH_SCORE : ℚ := 0.5
/-- Scoring weight for a tag match. -/
def TAG_MATCH_SCORE : ℚ := 0.4

/-- Embeds the word-splitting part of `SkillMatcher._tokenize`: the maximal runs of
word characters (`re.findall(r"[\w]+", text)`). -/
def findWordsAux (acc : List Char) : List Char → List String
  | [] => if acc.isEmpty then [] else [String.mk acc.reverse]
  | c :: rest =>
    if isWordChar c then findWordsAux (c :: acc) rest
    else if acc.isEmpty then findWordsAux [] rest
    else String.mk acc.reverse :: findWordsAux [] rest

/-- Maximal word-character runs of a string. -/
def findWords (text : String) : List String :=
  findWordsAux [] text.toList

/-- The CJK expansion of `_tokenize`: for a word at positions
`i = 0..n-1`, emit the character at `i` and, when `i+1 < n`, the bigram at
`i, i+1`. -/
def cjkExpandAux : List Char → List String
  | [] => []
  | [c] => [String.mk [c]]
  | c1 :: c2 :: rest => String.mk [c1] :: String.mk [c1, c2] :: cjkExpandAux (c2 :: rest)

/-- Per-word tokenization: a word containing a CJK character yields the
word itself, then its characters and adjacent bigrams; otherwise the word
alone. -/
def tokenizeWord (w : String) : List String :=
  if w.toList.any isCJKChar then w :: cjkExpandAux w.toList else [w]

/-- Embeds `SkillMatcher._tokenize`. -/
def tokenize (text : String) : List String :=
  (findWords text).flatMap tokenizeWord

/-- Stop-word set of `SkillMatcher._extract_keywords`. -/
def stopWords : List String :=
  ["a", "an", "the", "is", "are", "was", "were", "be", "been",
   "being", "have", "has", "had", "do", "does", "did", "will",
   "would", "could", "should", "may", "might", "must", "shall",
   "can", "need", "dare", "ought", "used", "to", "of", "in",
   "for", "on", "with", "at", "by", "from", "as", "into",
   "through", "during", "before", "after", "above", "below",
   "between", "under", "again", "further", "then", "once",
   "here", "there", "when", "where", "why", "how", "all",
   "each", "few", "more", "most", "other", "some", "such",
   "no", "nor", "not", "only", "own", "same", "so", "than",
   "too", "very", "just", "and", "but", "if", "or", "because",
   "this", "that", "these", "those", "it", "its"]

/-- Embeds `SkillMatcher._extract_keywords`: the distinct tokens of the lowered
text longer than two characters and not stop words (a Python set; `dedup`
captures its distinctness, and downstream only cardinality and membership
are used). -/
def extractKeywords (text : String) : List String :=
  ((tokenize (pyLower text)).filter
    (fun w => w.length > 2 && !(stopWords.contains w))).dedup

/-- Embeds `if score > best_score: best_score, matched_by = score, tag`. -/
def updateBest (best : ℚ × String) (score : ℚ) (tag : String) : ℚ × String :=
  if best.1 < score then (score, tag) else best

/-- The trigger loop of `_score_match` after the exact-equality
short-circuit: per trigger, the substring check (`PARTIAL_TRIGGER_SCORE`)
then the word-subset check (`PARTIAL_TRIGGER_SCORE * 0.9`). -/
def triggerFold (qL : String) (qWords : List String) :
    ℚ × String → List String → ℚ × String
  | best, [] => best
  | best, t :: rest =>
    let tL := pyLower t
    let b1 := if strContains qL tL then
        updateBest best PARTIAL_TRIGGER_SCORE ("partial trigger: " ++ t)
      else best
    let tWords := tokenize tL
    let b2 := if !tWords.isEmpty && tWords.all (fun w => qWords.contains w) then
        updateBest b1 (PARTIAL_TRIGGER_SCORE * 0.9) ("trigger words: " ++ t)
      else b1
    triggerFold qL qWords b2 rest

/-- The name-match step of `_score_match`. -/
def nameStage (qL : String) (qWords : List String) (m : SkillMetadata)
    (best : ℚ × String) : ℚ × String :=
  let nameL := pyReplaceChar (pyReplaceChar (pyLower m.name) '-' ' ') '_' ' '
  let nameWords := tokenize nameL
  if strContains qL nameL || strContains nameL qL then
    updateBest best NAME_MATCH_SCORE ("name: " ++ m.name)
  else if !nameWords.isEmpty && nameWords.all (fun w => qWords.contains w) then
    updateBest best (NAME_MATCH_SCORE * 0.9) ("name words: " ++ m.name)
  else best

/-- The description-keyword step of `_score_match`. -/
def descStage (qWords : List String) (m : SkillMetadata)
    (best : ℚ × String) : ℚ × String :=
  let descWords := extractKeywords m.description
  let common := descWords.filter (fun w => qWords.contains w)
  if !common.isEmpty then
    let ratio : ℚ := (common.length : ℚ) / (max descWords.length 1 : ℚ)
    updateBest best (DESCRIPTION_MATCH_SCORE * (0.5 + ratio * 0.5))
      ("description keywords: " ++ pyJoin ", " common)
  else best

/-- The tag loop of `_score_match`. -/
def tagFold (qL : String) : ℚ × String → List String → ℚ × String
  | best, [] => best
  | best, tag :: rest =>
    let b1 := if strContains qL (pyLower tag) then
        updateBest best TAG_MATCH_SCORE ("tag: " ++ tag)
      else best
    tagFold qL b1 rest

/-- Embeds `SkillMatcher._score_match`. -/
def scoreMatch (q : String) (m : SkillMetadata) : Option MatchResult :=
  let qL := pyTrim (pyLower q)
  match m.triggers.find? (fun t => pyLower t == qL) with
  | some t => some ⟨m, EXACT_TRIGGER_SCORE, "exact trigger: " ++ t⟩
  | none =>
    let qWords := tokenize qL
    let b0 := triggerFold qL qWords (0, "") m.triggers
    let b1 := nameStage qL qWords m b0
    let b2 := descStage qWords m b1
    let b3 := tagFold qL b2 m.tags
    if 0 < b3.1 then some ⟨m, b3.1, b3.2⟩ else none

/-! ## Resource model — `openskills/models/resource.py`, `dependency.py` -/

/-- Embeds `ReferenceMode`. -/
inductive ReferenceMode where
  | explicitMode
  | implicitMode
  | alwaysMode
deriving DecidableEq, Repr, BEq

/-- Embeds `Reference` (layer 3): `content = none` until loaded;
`is_loaded() ⟺ content ≠ none`. -/
structure Reference where
  path : String
  condition : String := ""
  description : String := ""
  mode : ReferenceMode := .implicitMode
  content : Option String := none
deriving DecidableEq, Repr

/-- Embeds `Reference.is_loaded`. -/
def Reference.is_loaded (r : Reference) : Bool :=
  r.content.isSome

/-- Embeds `Script` (layer 3). -/
structure Script where
  name : String
  path : String
  description : String
  args : List String := []
  timeout : Nat := 30
  sandbox : Bool := true
  outputs : List String := []
deriving DecidableEq, Repr

/-- Embeds `SkillDependency`. -/
structure SkillDependency where
  python : List String := []
  system : List String := []
deriving DecidableEq, Repr

/-- Embeds `SkillDependency.has_dependencies`. -/
def SkillDependency.has_dependencies (d : SkillDependency) : Bool :=
  !d.python.isEmpty || !d.system.isEmpty

/-- Embeds `SkillResources`. -/
structure SkillResources where
  references : List Reference := []
  scripts : List Script := []
  dependency : SkillDependency := {}
deriving DecidableEq, Repr

/-- Embeds `SkillResources.get_reference` (first reference with the path). -/
def SkillResources.get_reference (rs : SkillResources) (path : String) :
    Option Reference :=
  rs.references.find? (fun r => r.path == path)

/-- Embeds `Skill` (`openskills/core/skill.py`): metadata plus the lazily
attached instruction body and the resources. -/
structure Skill where
  metadata : SkillMetadata
  instruction : Option String := none
  resources : SkillResources := {}
deriving DecidableEq, Repr

/-- Convenience accessor mirroring `Skill.name`. -/
def Skill.name (s : Skill) : String := s.metadata.name

/-! ## Skill parser — `openskills/core/parser.py`

YAML frontmatter parsing is an external collaborator (see the spec's
scope); a parsed header is embedded directly as the `Frontmatter`
structure.  The filesystem under `references/` is embedded as an `FsEntry`
tree. -/

/-- A reference declaration in the header: the dict form (with
`mode` as the raw string, `"implicit"` when the key is absent) or the bare
path-string form. -/
inductive RefDecl where
  | dict (path condition description : String) (mode : String)
  | str (path : String)
deriving DecidableEq, Repr

/-- Embeds `ReferenceMode(mode_str)` with the parser's
`except ValueError: mode = ReferenceMode.IMPLICIT` fallback. -/
def parseMode (s : String) : ReferenceMode :=
  if s == "explicit" then .explicitMode
  else if s == "implicit" then .implicitMode
  else if s == "always" then .alwaysMode
  else .implicitMode

/-- A parsed SKILL.md header (the YAML mapping), with `none` for absent
required fields. -/
structure Frontmatter where
  name : Option String := none
  description : Option String := none
  version : Option String := none
  triggers : List String := []
  author : Option String := none
  tags : List String := []
  references : List RefDecl := []
  scripts : List Script := []
  dependency : SkillDependency := {}
deriving DecidableEq, Repr

/-- A file tree under the skill's `references/` directory. -/
inductive FsEntry where
  | file (name : String)
  | dir (name : String) (children : List FsEntry)
deriving Repr

/-- Supported reference extensions of `SkillParser._discover_references`. -/
def supportedRefExtensions : List String := [".md", ".txt", ".json", ".yaml", ".yml"]

/-- The reference paths declared in the header
(`declared_paths` of `_parse_resources`). -/
def declaredPathOf : RefDecl → String
  | .dict p _ _ _ => p
  | .str p => p

/-- Embeds the header `references` loop of `SkillParser._parse_resources`. -/
def declaredReferences (decls : List RefDecl) : List Reference :=
  decls.map fun d =>
    match d with
    | .dict p c desc m => { path := p, condition := c, description := desc, mode := parseMode m }
    | .str p => { path := p }

/-- Embeds `scan_dir` of `SkillParser._discover_references`: walk the tree
in order; a file with a supported extension whose relative path (prefixed
`references/`) is not declared becomes an IMPLICIT reference with
description `"Auto-discovered: " ++ name`; a directory is scanned
recursively.  `pre` is the relative path prefix below `references/`. -/
def scanEntries (declared : List String) : String → List FsEntry → List Reference
  | _, [] => []
  | pre, .file name :: rest =>
    let relPath := "references/" ++ pre ++ name
    (if supportedRefExtensions.contains (pyLower (pathSuffix name)) &&
        !(declared.contains relPath) then
      [{ path := relPath, description := "Auto-discovered: " ++ name,
         mode := ReferenceMode.implicitMode }]
    else []) ++ scanEntries declared pre rest
  | pre, .dir name children :: rest =>
    scanEntries declared (pre ++ name ++ "/") children ++ scanEntries declared pre rest

/-- Embeds `SkillParser._discover_references` applied to the whole
`references/` directory. -/
def discoverReferences (refsDir : List FsEntry) (declared : List String) :
    List Reference :=
  scanEntries declared "" refsDir

/-- Embeds `SkillParser._parse_resources`: header references first, then
auto-discovered ones (when the skill has a source directory whose
`references/` subdirectory exists, embedded as `refsDir = some tree`),
then scripts and the dependency. -/
def parseResources (fm : Frontmatter) (refsDir : Option (List FsEntry)) :
    SkillResources :=
  let declared := fm.references.map declaredPathOf
  let refs := declaredReferences fm.references ++
    (match refsDir with
     | some tree => discoverReferences tree declared
     | none => [])
  { references := refs, scripts := fm.scripts, dependency := fm.dependency }

/-- Embeds `SkillParser._validate_frontmatter`: the required fields
`name`, `description` must be present. -/
def validateFrontmatter (fm : Frontmatter) : Except String Unit :=
  let missing := (if fm.name.isNone then ["name"] else []) ++
    (if fm.description.isNone then ["description"] else [])
  if missing.isEmpty then .ok ()
  else .error ("Missing required fields in frontmatter: " ++ pyJoin ", " missing)

/-- Embeds `SkillParser.parse_content`: validate, build metadata, parse
resources, and attach the body as the instruction unless metadata-only. -/
def parseContent (fm : Frontmatter) (body : String)
    (refsDir : Option (List FsEntry)) (metadataOnly : Bool) :
    Except String Skill :=
  match validateFrontmatter fm with
  | .error e => .error e
  | .ok () =>
    let metadata : SkillMetadata := {
      name := fm.name.getD "",
      description := fm.description.getD "",
      version := fm.version.getD "1.0.0",
      triggers := fm.triggers,
      author := fm.author,
      tags := fm.tags }
    let resources := parseResources fm refsDir
    let instruction := if !metadataOnly && !(body == "") then some body else none
    .ok { metadata := metadata, instruction := instruction, resources := resources }

/-! ## Skill discovery — `openskills/core/manager.py`

`_scan_directory` / `discover` / `_register_skill`.  A directory is
embedded as the list of its subdirectories (each optionally holding a
SKILL.md, given as its parsed header and body) plus an optional root
SKILL.md. -/

/-- A subdirectory of a skill root: name plus the SKILL.md content when
present (header and body; the `references/` tree is irrelevant to
metadata-only discovery and omitted). -/
structure DirEntry where
  name : String
  skillDoc : Option (Frontmatter × String) := none
deriving DecidableEq, Repr

/-- A configured skill root directory. -/
structure SkillRoot where
  entries : List DirEntry := []
  rootDoc : Option (Frontmatter × String) := none
deriving DecidableEq, Repr

/-- Embeds `SkillManager._scan_directory`: parse each subdirectory's
SKILL.md metadata-only, skipping failures (the `try/except` logs and
continues); then the root's own SKILL.md the same way. -/
def scanDirectory (root : SkillRoot) : List Skill :=
  (root.entries.filterMap fun e =>
    e.skillDoc.bind fun doc => (parseContent doc.1 doc.2 none true).toOption) ++
  (match root.rootDoc with
   | some doc => ((parseContent doc.1 doc.2 none true).toOption).toList
   | none => [])

/-- Registry state of `SkillManager`: the name-indexed skill dict
(association list, last write wins via replacement) and the metadata
index. -/
structure Registry where
  skills : List (String × Skill) := []
  metadataIndex : List SkillMetadata := []
deriving Repr

/-- Embeds `SkillManager._register_skill`: `self._skills[name] = skill`
(replacing any earlier entry for the name) and an append to the metadata
index. -/
def registerSkill (reg : Registry) (s : Skill) : Registry :=
  { skills :=
      (if reg.skills.any (fun kv => kv.1 == s.name) then
        reg.skills.map (fun kv => if kv.1 == s.name then (kv.1, s) else kv)
      else reg.skills ++ [(s.name, s)]),
    metadataIndex := reg.metadataIndex ++ [s.metadata] }

/-- Embeds `SkillManager.discover` over the configured roots (starting
from a cleared registry). -/
def discover (roots : List SkillRoot) : Registry :=
  (roots.flatMap scanDirectory).foldl registerSkill {}

/-! ## Sandbox executor pool — `openskills/sandbox/manager.py`

Remote executors are opaque; each created `SandboxExecutor` is identified
by a fresh natural number.  The `OrderedDict` cache is an association list
in insertion order (head = oldest / least recently used).  `hasDeps`
embeds `dependency and dependency.has_dependencies()` of a call. -/

/-- Embeds `SandboxStrategy`. -/
inductive SandboxStrategy where
  | perExecution
  | perSkill
  | persistent
deriving DecidableEq, Repr, BEq

/-- State of a `SandboxManager`: strategy, cache bound, the LRU cache,
the persistent executor, the installed-dependency ledger, the fresh-id
counter, the executors torn down so far, and the context-manager flag. -/
structure SandboxManagerState where
  strategy : SandboxStrategy
  cacheSize : Nat := 10
  cache : List (String × Nat) := []
  persistentExecutor : Option Nat := none
  installedDeps : List String := []
  nextId : Nat := 0
  destroyed : List Nat := []
  active : Bool := false
deriving DecidableEq, Repr

/-- Embeds the `while len(self._cache) > self.cache_size` eviction loop:
pop from the front (oldest), recording the torn-down executor. -/
def evictLoop (size : Nat) : List (String × Nat) → List Nat →
    List (String × Nat) × List Nat
  | [], destroyed => ([], destroyed)
  | e :: rest, destroyed =>
    if (e :: rest).length ≤ size then (e :: rest, destroyed)
    else evictLoop size rest (destroyed ++ [e.2])

/-- Embeds the body of `SandboxManager.get_executor` after the `_active`
guard (under the manager's lock): dispatch on the strategy.  Returns the
executor id and the new state. -/
def getExecutorOk (s : SandboxManagerState) (skillName : String)
    (hasDeps : Bool) : Nat × SandboxManagerState :=
  match s.strategy with
  | .perExecution => (s.nextId, { s with nextId := s.nextId + 1 })
  | .persistent =>
    match s.persistentExecutor with
    | none =>
      let deps := if hasDeps then s.installedDeps ++ [skillName] else s.installedDeps
      (s.nextId,
       { s with persistentExecutor := some s.nextId, nextId := s.nextId + 1, installedDeps := deps })
    | some e =>
      if hasDeps && !(s.installedDeps.contains skillName) then
        (e, { s with installedDeps := s.installedDeps ++ [skillName] })
      else (e, s)
  | .perSkill =>
    match s.cache.find? (fun kv => kv.1 == skillName) with
    | some kv =>
      -- cache hit: move_to_end
      (kv.2, { s with cache := s.cache.filter (fun e => !(e.1 == skillName)) ++ [kv] })
    | none =>
      let ex := s.nextId
      let cache1 := s.cache ++ [(skillName, ex)]
      let (cache2, destroyed2) := evictLoop s.cacheSize cache1 s.destroyed
      (ex, { s with cache := cache2, nextId := ex + 1, destroyed := destroyed2 })

/-- Embeds `SandboxManager.get_executor`: outside the
`async with` scope it raises `RuntimeError`. -/
def getExecutor (s : SandboxManagerState) (skillName : String)
    (hasDeps : Bool) : Except String (Nat × SandboxManagerState) :=
  if !s.active then
    .error "SandboxManager must be used as async context manager"
  else .ok (getExecutorOk s skillName hasDeps)

/-- Well-formedness of a pool state: cache keys are distinct, all ids in
the cache are distinct and below the fresh counter, and the cache respects
the bound.  This holds of the initial state (empty cache) and is preserved
by `getExecutorOk` (proved below). -/
def PoolWF (s : SandboxManagerState) : Prop :=
  (s.cache.map Prod.fst).Nodup ∧ (s.cache.map Prod.snd).Nodup ∧
  (∀ e ∈ s.cache, e.2 < s.nextId) ∧ s.cache.length ≤ s.cacheSize

/-! ## Conversation orchestrator — `openskills/agent.py`

The LLM is an oracle: each LLM call site takes an `Option String`
(`some content` = the call returned `content`, `none` = it raised, landing
in the `except` branch).  File loads (`SkillManager.load_reference` on a
miss) are a `String → Option String` oracle.  The embedded
`ConversationContext` carries the fields the claims are about
(`active_skill`, `state`, `loaded_references`, `reference_summaries`); the
message history and the `metadata` dict are orthogonal to every claim and
omitted. -/

/-- Embeds `AgentState`. -/
inductive AgentState where
  | idle
  | skillActive
  | awaitingConfirmation
deriving DecidableEq, Repr, BEq

/-- Embeds `ConversationContext` (reference-tracking fields).
`reference_summaries` is a Python dict in insertion order, embedded as an
association list with no duplicate keys. -/
structure ConversationContext where
  activeSkill : Option Skill := none
  state : AgentState := .idle
  loadedReferences : List String := []
  referenceSummaries : List (String × String) := []
deriving DecidableEq, Repr

/-- Embeds the per-reference answer parsing of
`SkillAgent._evaluate_reference_conditions`: find the first line whose
stripped form starts with `"{i+1}."` or `"{i+1}:"`. -/
def findAnswerLine (lines : List String) (i : Nat) : Option String :=
  lines.find? fun line =>
    strStartsWith (pyTrim line) (toString (i + 1) ++ ".") ||
    strStartsWith (pyTrim line) (toString (i + 1) ++ ":")

/-- Embeds `SkillAgent._evaluate_reference_conditions` for `n` references:
on a successful call, split the stripped response into lines and read
`"yes" in line.lower()` from each reference's answer line, defaulting to
`false` when no line parses; on a raised call (`none`), `[False] * n`. -/
def evalRefConditions (llmResponse : Option String) (n : Nat) : List Bool :=
  match llmResponse with
  | none => List.replicate n false
  | some content =>
    let lines := pySplitNl (pyTrim content)
    (List.range n).map fun i =>
      match findAnswerLine lines i with
      | some line => strContains (pyLower line) "yes"
      | none => false

/-- Embeds `SkillManager.load_reference` specialised to a reference of the
active skill: a loaded reference returns its cached content, otherwise the
file oracle is consulted (`none` = file absent or unreadable). -/
def effectiveLoad (r : Reference) (loadRef : String → Option String) :
    Option String :=
  match r.content with
  | some c => some c
  | none => loadRef r.path

/-- Sets `ref.content = content` on the reference objects with the given
path inside the skill's resources. -/
def setRefContent (sk : Skill) (path content : String) : Skill :=
  { sk with resources := { sk.resources with
      references := sk.resources.references.map fun r =>
        if r.path == path then { r with content := some content } else r } }

/-- Whether the reference at path `p` of the skill would load to truthy
content (cached content, or the file oracle's answer): the `if content:`
guard of the loading loop as a predicate. -/
def refLoadable (loadRef : String → Option String) (sk : Skill) (p : String) : Bool :=
  match sk.resources.get_reference p with
  | some r => pyTruthy (effectiveLoad r loadRef)
  | none => false

/-- Embeds one of the two identical loading loops of
`SkillAgent._load_applicable_references`: for each path in order, load it
(try/except pass swallows errors, embedded by the total oracle), and on
truthy content record it in the reference object, the context's
`loaded_references` and this turn's `loaded` list. -/
def loadSeq (loadRef : String → Option String) :
    Skill → List String → List String → List String →
    Skill × List String × List String
  | sk, loadedRefs, loaded, [] => (sk, loadedRefs, loaded)
  | sk, loadedRefs, loaded, p :: rest =>
    match sk.resources.get_reference p with
    | none => loadSeq loadRef sk loadedRefs loaded rest
    | some r =>
      if pyTruthy (effectiveLoad r loadRef) then
        loadSeq loadRef (setRefContent sk p ((effectiveLoad r loadRef).getD ""))
          (loadedRefs ++ [p]) (loaded ++ [p]) rest
      else loadSeq loadRef sk loadedRefs loaded rest

/-- The references of the skill not yet in `loaded_references`
(the skip at the top of the loop in `_load_applicable_references`). -/
def pendingRefs (sk : Skill) (loadedRefs : List String) : List Reference :=
  sk.resources.references.filter fun r => !(loadedRefs.contains r.path)

/-- The pending ALWAYS-mode references, in declaration order. -/
def alwaysRefsOf (sk : Skill) (loadedRefs : List String) : List Reference :=
  (pendingRefs sk loadedRefs).filter fun r => r.mode == .alwaysMode

/-- The pending EXPLICIT/IMPLICIT references handed to the LLM batch. -/
def llmRefsOf (sk : Skill) (loadedRefs : List String) : List Reference :=
  (pendingRefs sk loadedRefs).filter fun r => !(r.mode == .alwaysMode)

/-- The paths of the LLM-graded references whose positional answer was
YES (`zip(refs_for_llm, eval_results)` in the source, keeping the
approved ones). -/
def toLoadOf (sk : Skill) (loadedRefs : List String)
    (llmResponse : Option String) : List String :=
  (((llmRefsOf sk loadedRefs).map Reference.path).zip
    (evalRefConditions llmResponse (llmRefsOf sk loadedRefs).length)).filterMap
    fun pb => if pb.2 then some pb.1 else none

/-- Embeds `SkillAgent._load_applicable_references`: load ALWAYS
references directly, then the LLM-approved EXPLICIT/IMPLICIT ones.
Returns the updated skill, the new `loaded_references`, and the paths
loaded this turn. -/
def loadApplicableReferences (sk : Skill) (loadedRefs : List String)
    (loadRef : String → Option String) (llmResponse : Option String) :
    Skill × List String × List String :=
  let step1 := loadSeq loadRef sk loadedRefs []
    ((alwaysRefsOf sk loadedRefs).map Reference.path)
  loadSeq loadRef step1.1 step1.2.1 step1.2.2 (toLoadOf sk loadedRefs llmResponse)

/-- Embeds `SkillAgent._generate_reference_summary`: the LLM summarises a
2000-character preview; on failure the first 100 characters plus `"..."`
stand in. -/
def genSummary (summarizer : String → Option String) (content : String) : String :=
  match summarizer (pyTake content 2000) with
  | some s => pyTrim s
  | none => pyTake content 100 ++ "..."

/-- Embeds the end-of-turn summary loop of `SkillAgent.chat`: for each
reference loaded this turn whose path has no cached summary yet and whose
content is truthy, insert a generated summary. -/
def chatSummaries (summarizer : String → Option String) (sk : Skill) :
    List (String × String) → List String → List (String × String)
  | summaries, [] => summaries
  | summaries, p :: rest =>
    let summaries1 :=
      if (summaries.find? (fun e => e.1 == p)).isSome then summaries
      else
        match sk.resources.get_reference p with
        | some r =>
          match r.content with
          | some c =>
            if !(c == "") then summaries ++ [(p, genSummary summarizer c)]
            else summaries
          | none => summaries
        | none => summaries
    chatSummaries summarizer sk summaries1 rest

/-- Embeds `PromptBuilder.build_active_skill_prompt` (the agent calls it
with `include_scripts = include_references = True`). -/
def buildActiveSkillPrompt (sk : Skill) (includeScripts includeReferences : Bool) :
    String :=
  let instrPart :=
    match sk.instruction with
    | some instr => "## Active Skill: " ++ sk.name ++ "\n\n" ++ instr ++ "\n"
    | none => "## Active Skill: " ++ sk.name ++ "\n\n" ++ sk.metadata.description
  let scriptParts :=
    if includeScripts && !sk.resources.scripts.isEmpty then
      let scriptsList := pyJoin "\n" (sk.resources.scripts.map fun sc =>
        "- `" ++ sc.name ++ "`: " ++ sc.description)
      ["\n## Available Actions\n\nYou can invoke the following scripts when needed:\n\n"
        ++ scriptsList ++
        "\n\nTo invoke a script, use the format: `[INVOKE:\x7bscript_name\x7d]` with any required parameters.\n"]
    else []
  let refParts :=
    if includeReferences then
      sk.resources.references.filterMap fun r =>
        if r.is_loaded && pyTruthy r.content then
          some ("\n## Reference: " ++ r.path ++ "\n\n" ++ r.content.getD "")
        else none
    else []
  pyJoin "\n" ([instrPart] ++ scriptParts ++ refParts)

/-- Embeds the `historical_summaries` dict comprehension of
`SkillAgent._build_system_prompt`: keep a cached summary iff its path is
not in the (session-cumulative) `loaded_references`, or was recalled this
turn. -/
def historicalSummaries (ctx : ConversationContext)
    (recalledPaths : List String) : List (String × String) :=
  ctx.referenceSummaries.filter fun e =>
    !(ctx.loadedReferences.contains e.1) || recalledPaths.contains e.1

/-- Embeds `SkillAgent._build_system_prompt`: base prompt, the
historical-summaries section, one section per recalled reference, then the
active skill's prompt — or, with no active skill, a catalog preview capped
at five entries (`allMetadata` embeds `SkillManager.get_all_metadata()` as
name/description pairs). -/
def buildSystemPrompt (basePrompt : String) (ctx : ConversationContext)
    (recalledRefs : List (String × String))
    (allMetadata : List (String × String)) : String :=
  let baseParts := if !(basePrompt == "") then [basePrompt] else []
  let hist := historicalSummaries ctx (recalledRefs.map Prod.fst)
  let histParts :=
    if !hist.isEmpty then
      let summariesText := pyJoin "\n" (hist.map fun e =>
        "- " ++ e.1 ++ ": " ++ e.2)
      ["## 之前加载的参考资料摘要（可用于回顾）\n" ++ summariesText]
    else []
  let recalledParts := recalledRefs.map fun e =>
    "## 重新加载的参考资料: " ++ e.1 ++ "\n" ++ e.2
  let skillParts :=
    match ctx.activeSkill with
    | some sk => [buildActiveSkillPrompt sk true true]
    | none =>
      if !allMetadata.isEmpty then
        let hints := (allMetadata.take 5).map fun m =>
          "- " ++ m.1 ++ ": " ++ m.2
        if !hints.isEmpty then
          ["Available capabilities:\n" ++ pyJoin "\n" hints]
        else []
      else []
  pyJoin "\n\n" (baseParts ++ histParts ++ recalledParts ++ skillParts)

/-- Orchestrator operations affecting the conversation context.  A
`chatTurn` carries its oracles: the skill the selection step would settle
on when none is active (`none` = neither matcher nor LLM selected one),
the file-load oracle, the reference-grading LLM response, and the
summariser.  (The recall step of a turn only reads these fields and
injects prompt text; it never touches `loaded_references` or
`reference_summaries`.) -/
inductive AgentOp where
  | selectSkill (sk : Skill)
  | deselectSkill
  | chatTurn (selected : Option Skill) (loadRef : String → Option String)
      (llmResponse : Option String) (summarizer : String → Option String)

/-- Recogniser for `deselectSkill`. -/
def AgentOp.isDeselect : AgentOp → Bool
  | .deselectSkill => true
  | _ => false

/-- Embeds the context effect of one orchestrator operation:
`select_skill` (instruction loading is part of the given skill value),
`deselect_skill` (clears `loaded_references`, keeps
`reference_summaries`), and the reference-affecting steps of one
`chat` turn under `auto_load_references = autoLoad`. -/
def applyOp (autoLoad : Bool) (ctx : ConversationContext) :
    AgentOp → ConversationContext
  | .selectSkill sk =>
    { ctx with activeSkill := some sk, state := .skillActive }
  | .deselectSkill =>
    { ctx with activeSkill := none, state := .idle, loadedReferences := [] }
  | .chatTurn selected loadRef llmResponse summarizer =>
    let ctx1 :=
      match ctx.activeSkill with
      | none =>
        match selected with
        | some sk => { ctx with activeSkill := some sk, state := .skillActive }
        | none => ctx
      | some _ => ctx
    match ctx1.activeSkill with
    | none => ctx1
    | some sk =>
      if autoLoad then
        let (sk1, newLoaded, thisTurn) :=
          loadApplicableReferences sk ctx1.loadedReferences loadRef llmResponse
        let summaries1 :=
          chatSummaries summarizer sk1 ctx1.referenceSummaries thisTurn
        { ctx1 with activeSkill := some sk1, loadedReferences := newLoaded, referenceSummaries := summaries1 }
      else ctx1

/-- A sequence of orchestrator operations. -/
def applyOps (autoLoad : Bool) (ctx : ConversationContext)
    (ops : List AgentOp) : ConversationContext :=
  ops.foldl (applyOp autoLoad) ctx

/-! ## Concrete instances used by witnesses and counterexamples -/

/-- A demo skill with one IMPLICIT reference, used to replay the
load-then-summarise scenario. -/
def demoSkill : Skill :=
  { metadata := { name := "r-skill", description := "demo skill" },
    instruction := some "INSTR",
    resources := { references := [{ path := "references/r.md", mode := .implicitMode }] } }

/-- File oracle for `demoSkill`: its reference resolves to `"QDOCQ"`. -/
def demoLoad : String → Option String :=
  fun p => if p == "references/r.md" then some "QDOCQ" else none

/-- The conversation context after one turn in which `demoSkill` was
selected, its reference graded YES, loaded, and summarised to `"ZSUMZ"`. -/
def demoCtx : ConversationContext :=
  applyOps true {}
    [AgentOp.selectSkill demoSkill,
     AgentOp.chatTurn none demoLoad (some "1. YES") (fun _ => some "ZSUMZ")]

/-- The skill value stored in `demoCtx` after its loading turn: the
reference carries its loaded content. -/
def demoLoadedSkill : Skill :=
  { metadata := { name := "r-skill", description := "demo skill" },
    instruction := some "INSTR",
    resources := { references :=
      [{ path := "references/r.md", mode := .implicitMode, content := some "QDOCQ" }] } }

/-- A demo skill with one ALWAYS and one EXPLICIT reference, for the
reference-loading policy witness. -/
def policySkill : Skill :=
  { metadata := { name := "p-skill", description := "policy skill" },
    instruction := some "INSTR",
    resources := { references :=
      [{ path := "references/a.md", mode := .alwaysMode },
       { path := "references/e.md", condition := "mentions budget", mode := .explicitMode }] } }

/-- File oracle for `policySkill`: both references resolve. -/
def policyLoad : String → Option String :=
  fun p => if p == "references/a.md" then some "ADOC"
    else if p == "references/e.md" then some "EDOC" else none

/-- A conversation context with `policySkill` active. -/
def policyCtx : ConversationContext :=
  { activeSkill := some policySkill, state := .skillActive }

/-- A PER_SKILL pool state with two cached executors and a full cache of
capacity two, for the pooling witness. -/
def demoPool : SandboxManagerState :=
  { strategy := .perSkill, cacheSize := 2, cache := [("a", 0), ("b", 1)],
    nextId := 2, active := true }

/-- A header declaring one reference path, for the auto-discovery witness. -/
def declHeader : Frontmatter :=
  { name := some "w", description := some "w",
    references := [RefDecl.str "references/notes.md"] }

/-- A `references/` tree holding one declared and one undeclared file. -/
def declTree : List FsEntry :=
  [FsEntry.file "notes.md", FsEntry.file "extra.txt"]

/-- A malformed header (no `name`). -/
def badHeader : Frontmatter := { description := some "broken skill" }

/-- A well-formed header. -/
def goodHeader : Frontmatter :=
  { name := some "good-skill", description := some "working skill" }

/-- A skill matched by exact trigger equality for the query `"draw chart"`. -/
def tierExact : SkillMetadata :=
  { name := "m-one", description := "d1", triggers := ["draw chart"] }

/-- A skill matched by trigger substring for the same query. -/
def tierSub : SkillMetadata :=
  { name := "m-two", description := "d2", triggers := ["chart"] }

/-- A skill matched by trigger word-subset (not substring) for the same query. -/
def tierWords : SkillMetadata :=
  { name := "m-three", description := "d3", triggers := ["chart draw"] }

/-- A skill matched only by description-keyword overlap for the same query. -/
def tierDesc : SkillMetadata :=
  { name := "zzz", description := "chart tools" }

/-! # Theorems

General-purpose lemmas first (substring closure under concatenation and
joining, `Except`/parser helpers, pool-state lemmas), then one theorem per
claim, each preceded by its claim id. -/

theorem isPrefixOf_self (l : List Char) : l.isPrefixOf l = true := by
  induction l with
  | nil => rfl
  | cons c rest ih => simp [List.isPrefixOf, ih]

theorem isPrefixOf_append_of (pat l l' : List Char) (h : pat.isPrefixOf l = true) :
    pat.isPrefixOf (l ++ l') = true := by
  induction pat generalizing l with
  | nil => simp [List.isPrefixOf]
  | cons p ps ih =>
    cases l with
    | nil => simp [List.isPrefixOf] at h
    | cons c rest =>
      simp only [List.isPrefixOf, Bool.and_eq_true] at h
      simp only [List.cons_append, List.isPrefixOf, Bool.and_eq_true]
      exact ⟨h.1, ih rest h.2⟩

theorem hasInfix_nil_pat (l : List Char) : hasInfix [] l = true := by
  cases l <;> simp [hasInfix, List.isPrefixOf]

theorem hasInfix_append_right (pat a b : List Char) (h : hasInfix pat b = true) :
    hasInfix pat (a ++ b) = true := by
  induction a with
  | nil => simpa using h
  | cons c rest ih =>
    simp only [List.cons_append, hasInfix, Bool.or_eq_true]
    exact Or.inr ih

theorem hasInfix_append_left (pat a b : List Char) (h : hasInfix pat a = true) :
    hasInfix pat (a ++ b) = true := by
  induction a with
  | nil =>
    simp only [hasInfix] at h
    have : pat = [] := by simpa using h
    subst this
    simpa using hasInfix_nil_pat b
  | cons c rest ih =>
    simp only [hasInfix, Bool.or_eq_true] at h
    simp only [List.cons_append, hasInfix, Bool.or_eq_true]
    rcases h with h | h
    · exact Or.inl (isPrefixOf_append_of _ _ _ h)
    · exact Or.inr (ih h)

theorem toList_append (a b : String) : (a ++ b).toList = a.toList ++ b.toList :=
  String.data_append a b

theorem strContains_self (s : String) : strContains s s = true := by
  unfold strContains
  cases h : s.toList with
  | nil => simp [hasInfix, h, List.isPrefixOf]
  | cons c rest => simp [hasInfix, h, isPrefixOf_self]

theorem strContains_append_of_left (a b pat : String)
    (h : strContains a pat = true) : strContains (a ++ b) pat = true := by
  unfold strContains at *
  rw [toList_append]
  exact hasInfix_append_left _ _ _ h

theorem strContains_append_of_right (a b pat : String)
    (h : strContains b pat = true) : strContains (a ++ b) pat = true := by
  unfold strContains at *
  rw [toList_append]
  exact hasInfix_append_right _ _ _ h

theorem strContains_pyJoin_of_mem (sep pat : String) (parts : List String)
    (s : String) (hs : s ∈ parts) (h : strContains s pat = true) :
    strContains (pyJoin sep parts) pat = true := by
  induction parts with
  | nil => cases hs
  | cons p rest ih =>
    cases hs with
    | head =>
      cases rest with
      | nil => simpa [pyJoin] using h
      | cons q rest2 =>
        simp only [pyJoin]
        exact strContains_append_of_left _ _ _ (strContains_append_of_left _ _ _ h)
    | tail _ hmem =>
      cases rest with
      | nil => cases hmem
      | cons q rest2 =>
        simp only [pyJoin]
        exact strContains_append_of_right _ _ _ (ih hmem)

/-! Claim C6. -/

/-- Claim C6: extracting script invocations finds each
`[INVOKE:name]` / `[INVOKE:name(args)]` marker: the text
`"...[INVOKE:upload(hello)]..."` yields exactly one invocation with name
`"upload"` and args `"hello"`, and `"...[INVOKE:upload]..."` yields
exactly one invocation with name `"upload"` and empty args. -/
theorem c6_invocation_extraction :
    extract_script_invocations "...[INVOKE:upload(hello)]..." = [("upload", "hello")] ∧
    extract_script_invocations "...[INVOKE:upload]..." = [("upload", "")] := by
  constructor <;> rfl

/-! Claim C1. -/

/-- Claim C1 counterexample: the claim says a wall-clock timeout raises a
timeout-class error distinct from the execution-class error of a non-zero
exit.  In the code both branches raise the same `ScriptExecutionError`
class: at a concrete timed-out run and a concrete exit-code-1 run, both
outcomes have error class `"ScriptExecutionError"` — the two failure kinds
share one class. -/
theorem c1_error_classes_conflated :
    execErrorClass (execute true ".py" (some 5) 30 true ⟨0, "", ""⟩ 1048576) =
      some "ScriptExecutionError" ∧
    execErrorClass (execute true ".py" (some 5) 30 false ⟨1, "", "boom"⟩ 1048576) =
      some "ScriptExecutionError" ∧
    execErrorClass (execute true ".py" (some 5) 30 true ⟨0, "", ""⟩ 1048576) =
      execErrorClass (execute true ".py" (some 5) 30 false ⟨1, "", "boom"⟩ 1048576) := by
  refine ⟨by decide, by decide, by decide⟩

/-- Claim C1 (amended): exceeding the wall-clock timeout and a non-zero
exit both raise the same `ScriptExecutionError` class; the timeout error
carries returncode `-1`, an empty stderr and a timed-out message, while
the exit error carries the actual exit code and the captured stderr, so
for positive exit codes the two error values are distinguishable by their
fields (though not by class). -/
theorem c1_timeout_vs_exit_code (suffix : String) (t dflt maxOut : Nat)
    (rc : Int) (out err : String)
    (hsuffix : SUPPORTED_EXTENSIONS.contains (pyLower suffix) = true)
    (ht : t ≠ 0) (hrc : 0 < rc) :
    execute true suffix (some t) dflt true ⟨rc, out, err⟩ maxOut =
      .scriptExecutionError
        ("Script execution timed out after " ++ toString t ++ " seconds") (-1) "" ∧
    execute true suffix (some t) dflt false ⟨rc, out, err⟩ maxOut =
      .scriptExecutionError
        ("Script failed with exit code " ++ toString rc) rc err ∧
    execErrorClass (execute true suffix (some t) dflt true ⟨rc, out, err⟩ maxOut) =
      execErrorClass (execute true suffix (some t) dflt false ⟨rc, out, err⟩ maxOut) ∧
    execute true suffix (some t) dflt true ⟨rc, out, err⟩ maxOut ≠
      execute true suffix (some t) dflt false ⟨rc, out, err⟩ maxOut := by
  have hrc' : rc ≠ 0 := by omega
  have hmem : pyLower suffix ∈ SUPPORTED_EXTENSIONS := by simpa using hsuffix
  have h1 : execute true suffix (some t) dflt true ⟨rc, out, err⟩ maxOut =
      .scriptExecutionError
        ("Script execution timed out after " ++ toString t ++ " seconds") (-1) "" := by
    simp [execute, hmem, ht]
  have h2 : execute true suffix (some t) dflt false ⟨rc, out, err⟩ maxOut =
      .scriptExecutionError
        ("Script failed with exit code " ++ toString rc) rc err := by
    simp [execute, runProcess, hmem, ht, hrc']
  refine ⟨h1, h2, ?_, ?_⟩
  · rw [h1, h2]
    simp [execErrorClass]
  · rw [h1, h2]
    intro h
    have := (ExecOutcome.scriptExecutionError.injEq _ _ _ _ _ _).mp h
    omega

/-- Witness for C1 at suffix `".py"`, timeout 5, exit code 1. -/
theorem c1_timeout_vs_exit_code_witness :
    (SUPPORTED_EXTENSIONS.contains (pyLower ".py") = true ∧ (5 : Nat) ≠ 0 ∧
      (0 : Int) < 1) ∧
    (execute true ".py" (some 5) 30 true ⟨1, "OUT", "boom"⟩ 100 =
      .scriptExecutionError
        ("Script execution timed out after " ++ toString (5 : Nat) ++ " seconds") (-1) "" ∧
    execute true ".py" (some 5) 30 false ⟨1, "OUT", "boom"⟩ 100 =
      .scriptExecutionError
        ("Script failed with exit code " ++ toString (1 : Int)) 1 "boom" ∧
    execErrorClass (execute true ".py" (some 5) 30 true ⟨1, "OUT", "boom"⟩ 100) =
      execErrorClass (execute true ".py" (some 5) 30 false ⟨1, "OUT", "boom"⟩ 100) ∧
    execute true ".py" (some 5) 30 true ⟨1, "OUT", "boom"⟩ 100 ≠
      execute true ".py" (some 5) 30 false ⟨1, "OUT", "boom"⟩ 100) :=
  ⟨⟨by decide, by decide, by decide⟩,
   c1_timeout_vs_exit_code ".py" 5 30 100 1 "OUT" "boom" (by decide) (by decide) (by decide)⟩

/-! Claim C5 counterexample. -/

/-- Claim C5 counterexample: `"ア・ア"` is a string of three characters
from the matcher's CJK ranges containing no ASCII, yet tokenizing it does
NOT produce the whole string as a token (the katakana middle dot `・`,
U+30FB, is not a `\w` word character, so `re.findall(r"[\w]+", ...)`
splits the string); the claim's "plus the whole string as a token" fails.
The full token list is `["ア", "ア", "ア", "ア"]`. -/
theorem c5_cjk_middle_dot_counterexample :
    "ア・ア".toList.length = 3 ∧
    (∀ c ∈ "ア・ア".toList, isCJKChar c = true ∧ 128 ≤ c.toNat) ∧
    tokenize "ア・ア" = ["ア", "ア", "ア", "ア"] ∧
    ¬ ("ア・ア" ∈ tokenize "ア・ア") := by
  refine ⟨by decide, by decide, by rfl, by decide⟩

/-! Claim C9. -/

theorem parseContent_toOption_none (fm : Frontmatter) (body : String)
    (refsDir : Option (List FsEntry)) (mo : Bool)
    (h : fm.name = none ∨ fm.description = none) :
    (parseContent fm body refsDir mo).toOption = none := by
  rcases h with h | h <;>
    simp [parseContent, validateFrontmatter, h, Except.toOption]

theorem parseContent_ok (fm : Frontmatter) (body : String)
    (refsDir : Option (List FsEntry)) (mo : Bool) (n d : String)
    (hn : fm.name = some n) (hd : fm.description = some d) :
    parseContent fm body refsDir mo = .ok
      { metadata := { name := n, description := d, version := fm.version.getD "1.0.0",
                      triggers := fm.triggers, author := fm.author, tags := fm.tags },
        instruction := if !mo && !(body == "") then some body else none,
        resources := parseResources fm refsDir } := by
  simp [parseContent, validateFrontmatter, hn, hd]

/-- Claim C9: a directory with one malformed and one well-formed skill
document yields exactly one registered skill — the malformed one is
skipped and does not abort discovery. -/
theorem c9_discovery_skips_malformed (fmBad fmGood : Frontmatter)
    (bodyBad bodyGood n1 n2 ngood dgood : String)
    (hbad : fmBad.name = none ∨ fmBad.description = none)
    (hn : fmGood.name = some ngood) (hd : fmGood.description = some dgood) :
    (discover [{ entries := [{ name := n1, skillDoc := some (fmBad, bodyBad) },
        { name := n2, skillDoc := some (fmGood, bodyGood) }] }]).metadataIndex.length = 1 ∧
    (discover [{ entries := [{ name := n1, skillDoc := some (fmBad, bodyBad) },
        { name := n2, skillDoc := some (fmGood, bodyGood) }] }]).metadataIndex.map
      SkillMetadata.name = [ngood] := by
  have hbadNone := parseContent_toOption_none fmBad bodyBad none true hbad
  have hgood := parseContent_ok fmGood bodyGood none true ngood dgood hn hd
  obtain ⟨e, he⟩ : ∃ e, parseContent fmBad bodyBad none true = .error e := by
    cases hpc : parseContent fmBad bodyBad none true with
    | error e => exact ⟨e, rfl⟩
    | ok sk => rw [hpc] at hbadNone; simp [Except.toOption] at hbadNone
  constructor <;>
    simp [discover, scanDirectory, registerSkill, he, hgood, Except.toOption,
      Skill.name]

/-- Witness for C9 at the concrete malformed/well-formed headers. -/
theorem c9_discovery_skips_malformed_witness :
    (badHeader.name = none ∨ badHeader.description = none) ∧
    goodHeader.name = some "good-skill" ∧ goodHeader.description = some "working skill" ∧
    ((discover [{ entries := [{ name := "bad", skillDoc := some (badHeader, "B") },
        { name := "good", skillDoc := some (goodHeader, "G") }] }]).metadataIndex.length = 1 ∧
    (discover [{ entries := [{ name := "bad", skillDoc := some (badHeader, "B") },
        { name := "good", skillDoc := some (goodHeader, "G") }] }]).metadataIndex.map
      SkillMetadata.name = ["good-skill"]) :=
  ⟨Or.inl (by decide), by decide, by decide,
   c9_discovery_skips_malformed badHeader goodHeader "B" "G" "bad" "good"
     "good-skill" "working skill" (Or.inl (by decide)) (by decide) (by decide)⟩

/-! Claim C8. -/

theorem scanEntries_sound (declared : List String) :
    ∀ (pre : String) (entries : List FsEntry),
    ∀ r ∈ scanEntries declared pre entries,
      r.mode = .implicitMode ∧ r.content = none ∧ r.condition = "" ∧
      declared.contains r.path = false ∧
      ∃ fname, r.description = "Auto-discovered: " ++ fname ∧
        supportedRefExtensions.contains (pyLower (pathSuffix fname)) = true
  | _, [] => by simp [scanEntries]
  | pre, .file name :: rest => by
    intro r hr
    simp only [scanEntries] at hr
    rcases List.mem_append.mp hr with h | h
    · split at h
      case isTrue hcond =>
        rw [Bool.and_eq_true] at hcond
        obtain ⟨hsupp, hnd⟩ := hcond
        simp only [List.mem_singleton] at h
        subst h
        refine ⟨rfl, rfl, rfl, ?_, name, rfl, hsupp⟩
        simpa using hnd
      case isFalse hcond => cases h
    · exact scanEntries_sound declared pre rest r h
  | pre, .dir name children :: rest => by
    intro r hr
    simp only [scanEntries] at hr
    rcases List.mem_append.mp hr with h | h
    · exact scanEntries_sound declared (pre ++ name ++ "/") children r h
    · exact scanEntries_sound declared pre rest r h

theorem scanEntries_file_mem (declared : List String) (fname : String)
    (hsupp : supportedRefExtensions.contains (pyLower (pathSuffix fname)) = true) :
    ∀ (pre : String) (entries : List FsEntry),
      FsEntry.file fname ∈ entries →
      declared.contains ("references/" ++ pre ++ fname) = false →
      ({ path := "references/" ++ pre ++ fname,
         description := "Auto-discovered: " ++ fname,
         mode := ReferenceMode.implicitMode } : Reference) ∈
        scanEntries declared pre entries
  | _, [], hmem, _ => by cases hmem
  | pre, .file name :: rest, hmem, hnd => by
    simp only [scanEntries]
    rcases List.mem_cons.mp hmem with h | h
    · obtain rfl : name = fname := by injection h.symm
      refine List.mem_append.mpr (Or.inl ?_)
      rw [if_pos]
      · exact List.mem_singleton.mpr rfl
      · rw [hsupp, hnd]
        rfl
    · exact List.mem_append.mpr
        (Or.inr (scanEntries_file_mem declared fname hsupp pre rest h hnd))
  | pre, .dir name children :: rest, hmem, hnd => by
    simp only [scanEntries]
    rcases List.mem_cons.mp hmem with h | h
    · cases h
    · exact List.mem_append.mpr
        (Or.inr (scanEntries_file_mem declared fname hsupp pre rest h hnd))

theorem scanEntries_dir_sub (declared : List String) (dname : String)
    (children : List FsEntry) :
    ∀ (pre : String) (entries : List FsEntry),
      FsEntry.dir dname children ∈ entries →
      ∀ r ∈ scanEntries declared (pre ++ dname ++ "/") children,
        r ∈ scanEntries declared pre entries
  | _, [], hmem, _, _ => by cases hmem
  | pre, .file name :: rest, hmem, r, hr => by
    simp only [scanEntries]
    rcases List.mem_cons.mp hmem with h | h
    · cases h
    · exact List.mem_append.mpr
        (Or.inr (scanEntries_dir_sub declared dname children pre rest h r hr))
  | pre, .dir name children2 :: rest, hmem, r, hr => by
    simp only [scanEntries]
    rcases List.mem_cons.mp hmem with h | h
    · obtain ⟨rfl, rfl⟩ : name = dname ∧ children2 = children := by
        injection h.symm with h1 h2
        exact ⟨h1, h2⟩
      exact List.mem_append.mpr (Or.inl hr)
    · exact List.mem_append.mpr
        (Or.inr (scanEntries_dir_sub declared dname children pre rest h r hr))

/-- Claim C8 (amended): parsing auto-registers each file under the
skill's `references/` directory (recursively) having a recognized
extension and a path not declared in the header, with mode defaulting to
IMPLICIT and description to `"Auto-discovered: <file name>"` (the claim
said the literal `"auto-discovered"`); a declared path is never
registered a second time by auto-discovery. -/
theorem c8_auto_discovery (fm : Frontmatter) (tree : List FsEntry) :
    (∀ r ∈ (parseResources fm (some tree)).references,
       r ∈ declaredReferences fm.references ∨
       (r.mode = .implicitMode ∧ r.content = none ∧ r.condition = "" ∧
        (fm.references.map declaredPathOf).contains r.path = false ∧
        ∃ fname, r.description = "Auto-discovered: " ++ fname ∧
          supportedRefExtensions.contains (pyLower (pathSuffix fname)) = true)) ∧
    (∀ r ∈ discoverReferences tree (fm.references.map declaredPathOf),
       (fm.references.map declaredPathOf).contains r.path = false) ∧
    (∀ fname, FsEntry.file fname ∈ tree →
       supportedRefExtensions.contains (pyLower (pathSuffix fname)) = true →
       (fm.references.map declaredPathOf).contains ("references/" ++ fname) = false →
       ({ path := "references/" ++ fname,
          description := "Auto-discovered: " ++ fname,
          mode := ReferenceMode.implicitMode } : Reference) ∈
         (parseResources fm (some tree)).references) ∧
    (∀ dname children, FsEntry.dir dname children ∈ tree →
       ∀ r ∈ scanEntries (fm.references.map declaredPathOf) (dname ++ "/") children,
         r ∈ (parseResources fm (some tree)).references) := by
  have hres : (parseResources fm (some tree)).references =
      declaredReferences fm.references ++
        discoverReferences tree (fm.references.map declaredPathOf) := rfl
  refine ⟨?_, ?_, ?_, ?_⟩
  · intro r hr
    rw [hres] at hr
    rcases List.mem_append.mp hr with h | h
    · exact Or.inl h
    · exact Or.inr (scanEntries_sound _ "" tree r h)
  · intro r hr
    exact (scanEntries_sound _ "" tree r hr).2.2.2.1
  · intro fname hmem hsupp hnd
    rw [hres]
    refine List.mem_append.mpr (Or.inr ?_)
    have h := scanEntries_file_mem (fm.references.map declaredPathOf) fname hsupp
      "" tree hmem (by simpa using hnd)
    simpa using h
  · intro dname children hmem r hr
    rw [hres]
    refine List.mem_append.mpr (Or.inr ?_)
    exact scanEntries_dir_sub _ dname children "" tree hmem r
      (by simpa using hr)

/-- Claim C8 counterexample: the claim says the auto-discovered
description defaults to the literal `"auto-discovered"`; the code uses
`"Auto-discovered: <file name>"`.  Parsing a skill with no declared
references over a `references/` directory holding `notes.md` yields one
reference whose description is `"Auto-discovered: notes.md"`, which is
not `"auto-discovered"`. -/
theorem c8_description_counterexample :
    (parseResources ({ references := [] } : Frontmatter)
        (some [FsEntry.file "notes.md"])).references.map Reference.description =
      ["Auto-discovered: notes.md"] ∧
    ("Auto-discovered: notes.md" : String) ≠ "auto-discovered" := by
  constructor
  · simp only [parseResources, declaredReferences, discoverReferences, scanEntries]
    decide
  · decide

/-- Witness for C8: a header declaring `references/notes.md` over a tree
holding `notes.md` and `extra.txt` auto-registers exactly the undeclared
`extra.txt` with the default mode and description. -/
theorem c8_auto_discovery_witness :
    (FsEntry.file "extra.txt" ∈ declTree ∧
     supportedRefExtensions.contains (pyLower (pathSuffix "extra.txt")) = true ∧
     (declHeader.references.map declaredPathOf).contains
       ("references/" ++ "extra.txt") = false) ∧
    ({ path := "references/" ++ "extra.txt",
       description := "Auto-discovered: " ++ "extra.txt",
       mode := ReferenceMode.implicitMode } : Reference) ∈
      (parseResources declHeader (some declTree)).references :=
  ⟨⟨by simp [declTree], by decide, by decide⟩,
   (c8_auto_discovery declHeader declTree).2.2.1 "extra.txt"
     (by simp [declTree]) (by decide) (by decide)⟩

/-! Claim C7. -/

theorem evictLoop_length (size : Nat) :
    ∀ (l : List (String × Nat)) (d : List Nat),
      (evictLoop size l d).1.length ≤ size
  | [], d => by simp [evictLoop]
  | e :: rest, d => by
    simp only [evictLoop]
    split
    case isTrue h => simpa using h
    case isFalse h => exact evictLoop_length size rest (d ++ [e.2])

theorem evictLoop_sublist (size : Nat) :
    ∀ (l : List (String × Nat)) (d : List Nat),
      (evictLoop size l d).1.Sublist l
  | [], d => by simp [evictLoop]
  | e :: rest, d => by
    simp only [evictLoop]
    split
    case isTrue h => exact List.Sublist.refl _
    case isFalse h =>
      exact (evictLoop_sublist size rest (d ++ [e.2])).trans
        (List.sublist_cons_self e rest)

theorem evictLoop_of_length_le (size : Nat) (l : List (String × Nat))
    (d : List Nat) (h : l.length ≤ size) : evictLoop size l d = (l, d) := by
  cases l with
  | nil => simp [evictLoop]
  | cons e rest => simp only [evictLoop]; rw [if_pos (by simpa using h)]

theorem find?_append_last (k : String) (e : Nat) :
    ∀ (l : List (String × Nat)),
      (∀ kv ∈ l, (kv.1 == k) = false) →
      (l ++ [(k, e)]).find? (fun kv => kv.1 == k) = some (k, e)
  | [], _ => by simp [List.find?]
  | a :: rest, h => by
    rw [List.cons_append, List.find?]
    rw [h a (List.mem_cons_self a rest)]
    exact find?_append_last k e rest fun kv hkv => h kv (List.mem_cons_of_mem a hkv)

theorem evict_find (size : Nat) (hsize : 1 ≤ size) (k : String) (e : Nat) :
    ∀ (l : List (String × Nat)) (d : List Nat),
      (∀ kv ∈ l, (kv.1 == k) = false) →
      (evictLoop size (l ++ [(k, e)]) d).1.find? (fun kv => kv.1 == k) = some (k, e)
  | [], d, h => by
    rw [List.nil_append, evictLoop_of_length_le size [(k, e)] d (by simpa using hsize)]
    simp [List.find?]
  | a :: rest, d, h => by
    rw [List.cons_append]
    simp only [evictLoop]
    split
    case isTrue hle =>
      exact find?_append_last k e (a :: rest) h
    case isFalse hgt =>
      exact evict_find size hsize k e rest (d ++ [a.2])
        (fun kv hkv => h kv (List.mem_cons_of_mem a hkv))

theorem filter_out_length (k : String) :
    ∀ (l : List (String × Nat)), (∃ kv ∈ l, kv.1 = k) →
      (l.filter (fun x => !(x.1 == k))).length < l.length
  | [], h => by simp at h
  | a :: rest, h => by
    by_cases ha : a.1 = k
    · rw [List.filter_cons]
      rw [if_neg (by simp [ha])]
      exact Nat.lt_succ_of_le (List.length_filter_le _ rest)
    · rw [List.filter_cons, if_pos (by simp [ha])]
      obtain ⟨kv, hkv, hk⟩ := h
      rcases List.mem_cons.mp hkv with rfl | hkv2
      · exact absurd hk ha
      · simpa using filter_out_length k rest ⟨kv, hkv2, hk⟩

theorem nodup_concat_of {α : Type} (l : List α) (a : α)
    (h1 : l.Nodup) (h2 : a ∉ l) : (l ++ [a]).Nodup := by
  rw [List.nodup_append]
  refine ⟨h1, List.nodup_singleton a, ?_⟩
  intro x hx hxa
  rw [List.mem_singleton] at hxa
  subst hxa
  exact h2 hx

theorem getExecutorOk_perSkill_spec (s : SandboxManagerState) (k : String)
    (hstrat : s.strategy = .perSkill) (hwf : PoolWF s) (hsize : 1 ≤ s.cacheSize) :
    (getExecutorOk s k false).2.strategy = .perSkill ∧
    (getExecutorOk s k false).2.cacheSize = s.cacheSize ∧
    (getExecutorOk s k false).2.cache.find? (fun kv => kv.1 == k) =
      some (k, (getExecutorOk s k false).1) ∧
    PoolWF (getExecutorOk s k false).2 ∧
    (getExecutorOk s k false).1 < (getExecutorOk s k false).2.nextId := by
  obtain ⟨hkeys, hids, hlt, hlen⟩ := hwf
  cases hfind : s.cache.find? (fun kv => kv.1 == k) with
  | some kv =>
    have hkvk : kv.1 = k := by
      have := List.find?_some hfind
      simpa using this
    have hkvmem : kv ∈ s.cache := List.mem_of_find?_eq_some hfind
    have hres : getExecutorOk s k false =
        (kv.2, { s with cache :=
          s.cache.filter (fun e => !(e.1 == k)) ++ [kv] }) := by
      simp only [getExecutorOk, hstrat, hfind]
    rw [hres]
    have hfsub : (s.cache.filter (fun e => !(e.1 == k))).Sublist s.cache :=
      List.filter_sublist _
    have hfmem : ∀ x ∈ s.cache.filter (fun e => !(e.1 == k)), (x.1 == k) = false := by
      intro x hx
      have := (List.mem_filter.mp hx).2
      simpa using this
    refine ⟨hstrat, rfl, ?_, ⟨?_, ?_, ?_, ?_⟩, ?_⟩
    · have : kv = (k, kv.2) := by
        cases kv; simp_all
      rw [this]
      exact find?_append_last k kv.2 _ hfmem
    · -- keys nodup
      simp only [List.map_append, List.map_cons, List.map_nil, hkvk]
      refine nodup_concat_of _ _ (List.Nodup.sublist (hfsub.map Prod.fst) hkeys) ?_
      intro hmem
      obtain ⟨x, hx, hxk⟩ := List.mem_map.mp hmem
      have := hfmem x hx
      rw [hxk] at this
      simp at this
    · -- ids nodup
      simp only [List.map_append, List.map_cons, List.map_nil]
      refine nodup_concat_of _ _ (List.Nodup.sublist (hfsub.map Prod.snd) hids) ?_
      intro hmem
      obtain ⟨x, hx, hxid⟩ := List.mem_map.mp hmem
      have hxmem : x ∈ s.cache := hfsub.mem hx
      have : x = kv := List.inj_on_of_nodup_map hids hxmem hkvmem hxid
      rw [this] at hx
      have := hfmem kv hx
      simp [hkvk] at this
    · intro e he
      rcases List.mem_append.mp he with h | h
      · exact hlt e (hfsub.mem h)
      · rw [List.mem_singleton.mp h]; exact hlt kv hkvmem
    · have : (s.cache.filter (fun e => !(e.1 == k))).length < s.cache.length :=
        filter_out_length k s.cache ⟨kv, hkvmem, hkvk⟩
      simp only [List.length_append, List.length_singleton]
      omega
    · exact hlt kv hkvmem
  | none =>
    have hks : ∀ kv ∈ s.cache, (kv.1 == k) = false := by
      intro kv hkv
      have := List.find?_eq_none.mp hfind kv hkv
      simpa using this
    have hknotin : k ∉ s.cache.map Prod.fst := by
      intro hmem
      obtain ⟨x, hx, hxk⟩ := List.mem_map.mp hmem
      have := hks x hx
      rw [beq_iff_eq.mpr hxk] at this
      cases this
    rcases hev : evictLoop s.cacheSize (s.cache ++ [(k, s.nextId)]) s.destroyed
      with ⟨cache2, d2⟩
    have hres : getExecutorOk s k false =
        (s.nextId, { s with cache := cache2, nextId := s.nextId + 1, destroyed := d2 }) := by
      simp only [getExecutorOk, hstrat, hfind, hev]
    rw [hres]
    have hsub2 : cache2.Sublist (s.cache ++ [(k, s.nextId)]) := by
      have := evictLoop_sublist s.cacheSize (s.cache ++ [(k, s.nextId)]) s.destroyed
      rwa [hev] at this
    have hmem2 : ∀ x ∈ cache2, x ∈ s.cache ∨ x = (k, s.nextId) := by
      intro x hx
      rcases List.mem_append.mp (hsub2.mem hx) with h | h
      · exact Or.inl h
      · exact Or.inr (List.mem_singleton.mp h)
    refine ⟨hstrat, rfl, ?_, ⟨?_, ?_, ?_, ?_⟩, ?_⟩
    · have := evict_find s.cacheSize hsize k s.nextId s.cache s.destroyed hks
      rwa [hev] at this
    · refine List.Nodup.sublist (hsub2.map Prod.fst) ?_
      simp only [List.map_append, List.map_cons, List.map_nil]
      exact nodup_concat_of _ _ hkeys hknotin
    · refine List.Nodup.sublist (hsub2.map Prod.snd) ?_
      simp only [List.map_append, List.map_cons, List.map_nil]
      refine nodup_concat_of _ _ hids ?_
      intro hmem
      obtain ⟨x, hx, hxid⟩ := List.mem_map.mp hmem
      exact absurd (hxid ▸ hlt x hx) (Nat.lt_irrefl _)
    · intro e he
      rcases hmem2 e he with h | h
      · exact Nat.lt_succ_of_lt (hlt e h)
      · rw [h]; exact Nat.lt_succ_self _
    · have := evictLoop_length s.cacheSize (s.cache ++ [(k, s.nextId)]) s.destroyed
      rwa [hev] at this
    · exact Nat.lt_succ_self _

/-- Claim C7: under the PER_SKILL strategy, from any well-formed active
pool state with capacity at least one: requesting an executor for the
same skill name twice returns the identical pooled instance; requesting
for a different skill name returns a different instance; the cache size
never exceeds the bound after a `get_executor` call; and when the cache
is full and a new skill name arrives, the least-recently-used (front)
entry is evicted and torn down. -/
theorem c7_per_skill_pooling (s : SandboxManagerState) (k k' k0 : String)
    (i0 : Nat) (restC : List (String × Nat))
    (hact : s.active = true) (hstrat : s.strategy = .perSkill)
    (hwf : PoolWF s) (hsize : 1 ≤ s.cacheSize) (hkk' : k' ≠ k) :
    getExecutor s k false = .ok (getExecutorOk s k false) ∧
    (getExecutorOk (getExecutorOk s k false).2 k false).1 =
      (getExecutorOk s k false).1 ∧
    (getExecutorOk (getExecutorOk s k false).2 k' false).1 ≠
      (getExecutorOk s k false).1 ∧
    (getExecutorOk s k false).2.cache.length ≤ s.cacheSize ∧
    (s.cache = (k0, i0) :: restC → s.cache.length = s.cacheSize →
      (∀ kv ∈ s.cache, (kv.1 == k) = false) →
      i0 ∈ (getExecutorOk s k false).2.destroyed ∧
      ∀ kv ∈ (getExecutorOk s k false).2.cache, kv.1 ≠ k0) := by
  obtain ⟨hstrat1, hcs1, hfind1, hwf1, hlt1⟩ :=
    getExecutorOk_perSkill_spec s k hstrat hwf hsize
  set r := getExecutorOk s k false with hrdef
  refine ⟨by simp [getExecutor, hact], ?_, ?_, ?_, ?_⟩
  · -- same name: the second call hits the cache entry of the first
    simp only [getExecutorOk, hstrat1, hfind1]
  · -- different name: fresh id or a distinct cached id
    obtain ⟨hkeys1, hids1, hlts1, hlen1⟩ := hwf1
    cases hfind' : r.2.cache.find? (fun kv => kv.1 == k') with
    | some kv' =>
      have hkv'1 : kv'.1 = k' := by
        have := List.find?_some hfind'
        simpa using this
      have hkv'mem := List.mem_of_find?_eq_some hfind'
      have hkmem : (k, r.1) ∈ r.2.cache := List.mem_of_find?_eq_some hfind1
      simp only [getExecutorOk, hstrat1, hfind']
      intro hcontra
      have : kv' = (k, r.1) :=
        List.inj_on_of_nodup_map hids1 hkv'mem hkmem (by simpa using hcontra)
      rw [this] at hkv'1
      exact hkk' hkv'1.symm
    | none =>
      simp only [getExecutorOk, hstrat1, hfind']
      omega
  · obtain ⟨_, _, _, hlen1⟩ := hwf1
    omega
  · rw [hrdef]
    intro hfull hlen hmiss
    obtain ⟨hkeys, hids, hlt, hlenwf⟩ := hwf
    have hfind0 : s.cache.find? (fun kv => kv.1 == k) = none :=
      List.find?_eq_none.mpr fun kv hkv => by simp [hmiss kv hkv]
    have hcons : s.cache ++ [(k, s.nextId)] =
        (k0, i0) :: (restC ++ [(k, s.nextId)]) := by
      rw [hfull, List.cons_append]
    have hlenrest : (restC ++ [(k, s.nextId)]).length = s.cacheSize := by
      have : s.cache.length = restC.length + 1 := by rw [hfull]; rfl
      simp only [List.length_append, List.length_singleton]
      omega
    have hev : evictLoop s.cacheSize (s.cache ++ [(k, s.nextId)]) s.destroyed =
        (restC ++ [(k, s.nextId)], s.destroyed ++ [i0]) := by
      rw [hcons]
      simp only [evictLoop]
      rw [if_neg (by simp only [List.length_cons, hlenrest]; omega)]
      exact evictLoop_of_length_le _ _ _ (le_of_eq hlenrest)
    have hres : getExecutorOk s k false =
        (s.nextId, { s with cache := restC ++ [(k, s.nextId)], nextId := s.nextId + 1, destroyed := s.destroyed ++ [i0] }) := by
      simp only [getExecutorOk, hstrat, hfind0, hev]
    rw [hres]
    constructor
    · simp
    · intro kv hkv
      have hk0rest : k0 ∉ restC.map Prod.fst := by
        have h2 := hkeys
        rw [hfull] at h2
        simp only [List.map_cons, List.nodup_cons] at h2
        exact h2.1
      rcases List.mem_append.mp hkv with h | h
      · intro hcontra
        exact hk0rest (List.mem_map.mpr ⟨kv, h, hcontra⟩)
      · rw [List.mem_singleton.mp h]
        intro hcontra
        have hk0k : k = k0 := by simpa using hcontra
        subst hk0k
        have := hmiss (k, i0) (by rw [hfull]; exact List.mem_cons_self _ _)
        simp at this

/-- Witness for C7 on a concrete full pool of capacity two: getting an
executor for the new skill `"c"` twice returns the identical instance, a
get for `"b"` returns a different instance, the bound holds, and the
least-recently-used entry `("a", 0)` is evicted and torn down. -/
theorem c7_per_skill_pooling_witness :
    (demoPool.active = true ∧ demoPool.strategy = .perSkill ∧ PoolWF demoPool ∧
     1 ≤ demoPool.cacheSize ∧ ("b" : String) ≠ "c" ∧
     demoPool.cache = ("a", 0) :: [("b", 1)] ∧
     demoPool.cache.length = demoPool.cacheSize ∧
     (∀ kv ∈ demoPool.cache, (kv.1 == "c") = false)) ∧
    getExecutor demoPool "c" false = .ok (getExecutorOk demoPool "c" false) ∧
    (getExecutorOk (getExecutorOk demoPool "c" false).2 "c" false).1 =
      (getExecutorOk demoPool "c" false).1 ∧
    (getExecutorOk (getExecutorOk demoPool "c" false).2 "b" false).1 ≠
      (getExecutorOk demoPool "c" false).1 ∧
    (getExecutorOk demoPool "c" false).2.cache.length ≤ demoPool.cacheSize ∧
    0 ∈ (getExecutorOk demoPool "c" false).2.destroyed ∧
    (∀ kv ∈ (getExecutorOk demoPool "c" false).2.cache, kv.1 ≠ "a") := by
  have hwf : PoolWF demoPool := by
    unfold PoolWF
    exact ⟨by decide, by decide, by decide, by decide⟩
  have T := c7_per_skill_pooling demoPool "c" "b" "a" 0 [("b", 1)]
    (by decide) (by decide) hwf (by decide) (by decide)
  have T5 := T.2.2.2.2 (by decide) (by decide) (by decide)
  exact ⟨⟨by decide, by decide, hwf, by decide, by decide, by decide,
    by decide, by decide⟩, T.1, T.2.1, T.2.2.1, T.2.2.2.1, T5.1, T5.2⟩

/-! Claim C5 (amended). -/

theorem length_mk (l : List Char) : (String.mk l).length = l.length := rfl

theorem mk_toList (s : String) : String.mk s.toList = s := rfl

theorem findWordsAux_allWord :
    ∀ (l acc : List Char), (∀ c ∈ l, isWordChar c = true) →
      (acc ≠ [] ∨ l ≠ []) →
      findWordsAux acc l = [String.mk (acc.reverse ++ l)]
  | [], acc, _, hne => by
    have hacc : acc ≠ [] := by
      rcases hne with h | h
      · exact h
      · exact absurd rfl h
    simp only [findWordsAux]
    rw [if_neg (by simpa using hacc)]
    simp
  | c :: rest, acc, h, _ => by
    simp only [findWordsAux]
    rw [if_pos (h c (List.mem_cons_self c rest))]
    rw [findWordsAux_allWord rest (c :: acc)
      (fun x hx => h x (List.mem_cons_of_mem c hx)) (Or.inl (by simp))]
    simp

theorem findWords_allWord (s : String)
    (h : ∀ c ∈ s.toList, isWordChar c = true) (hne : s.toList ≠ []) :
    findWords s = [s] := by
  unfold findWords
  rw [findWordsAux_allWord s.toList [] h (Or.inr hne)]
  simp [mk_toList]

theorem cjkExpand_singles :
    ∀ (l : List Char),
      ((cjkExpandAux l).filter (fun t => t.length = 1)).length = l.length
  | [] => by simp [cjkExpandAux]
  | [c] => by simp [cjkExpandAux, length_mk]
  | c1 :: c2 :: rest => by
    have ih := cjkExpand_singles (c2 :: rest)
    simp only [cjkExpandAux, List.filter_cons, length_mk] at ih ⊢
    simp only [List.length_cons] at ih ⊢
    norm_num
    omega

theorem cjkExpand_bigrams :
    ∀ (l : List Char),
      ((cjkExpandAux l).filter (fun t => t.length = 2)).length = l.length - 1
  | [] => by simp [cjkExpandAux]
  | [c] => by simp [cjkExpandAux, length_mk]
  | c1 :: c2 :: rest => by
    have ih := cjkExpand_bigrams (c2 :: rest)
    simp only [cjkExpandAux, List.filter_cons, length_mk] at ih ⊢
    simp only [List.length_cons] at ih ⊢
    norm_num
    omega

/-- Claim C5 (amended): for every nonempty string all of whose characters
lie in the matcher's CJK ranges AND are word characters (the ranges minus
the handful of non-word code points such as the katakana middle dot),
tokenization yields the whole string as the head token followed by the
character/bigram expansion: exactly N single-character tokens and exactly
N−1 adjacent-bigram tokens.  Over arbitrary CJK-range characters the
claim as stated fails (see the counterexample). -/
theorem c5_cjk_tokenization (s : String) (hne : s.toList ≠ [])
    (h : ∀ c ∈ s.toList, isCJKChar c = true ∧ isWordChar c = true) :
    tokenize s = s :: cjkExpandAux s.toList ∧
    ((cjkExpandAux s.toList).filter (fun t => t.length = 1)).length =
      s.toList.length ∧
    ((cjkExpandAux s.toList).filter (fun t => t.length = 2)).length =
      s.toList.length - 1 ∧
    s ∈ tokenize s := by
  have htok : tokenize s = s :: cjkExpandAux s.toList := by
    unfold tokenize
    rw [findWords_allWord s (fun c hc => (h c hc).2) hne]
    have hcjk : s.toList.any isCJKChar = true := by
      cases hl : s.toList with
      | nil => exact absurd hl hne
      | cons c rest =>
        have := (h c (by rw [hl]; exact List.mem_cons_self c rest)).1
        simp [List.any_cons, this]
    simp only [List.flatMap_cons, List.flatMap_nil, List.append_nil, tokenizeWord]
    rw [if_pos hcjk]
  refine ⟨htok, cjkExpand_singles s.toList, cjkExpand_bigrams s.toList, ?_⟩
  rw [htok]
  exact List.mem_cons_self _ _

/-- Witness for C5 at the two-character CJK string `"会议"`. -/
theorem c5_cjk_tokenization_witness :
    ("会议".toList ≠ [] ∧
     (∀ c ∈ "会议".toList, isCJKChar c = true ∧ isWordChar c = true)) ∧
    (tokenize "会议" = "会议" :: cjkExpandAux "会议".toList ∧
     ((cjkExpandAux "会议".toList).filter (fun t => t.length = 1)).length =
       "会议".toList.length ∧
     ((cjkExpandAux "会议".toList).filter (fun t => t.length = 2)).length =
       "会议".toList.length - 1 ∧
     "会议" ∈ tokenize "会议") :=
  ⟨⟨by decide, by decide⟩,
   c5_cjk_tokenization "会议" (by decide) (by decide)⟩

/-! Claims C3 and C10: reference-loading policy and context invariants. -/

theorem pyTruthy_exists (o : Option String) (h : pyTruthy o = true) :
    ∃ c, o = some c ∧ (c == "") = false := by
  cases o with
  | none => cases h
  | some c =>
    refine ⟨c, rfl, ?_⟩
    simpa [pyTruthy] using h
theorem find?_map_path (l : List Reference) (p : String)
    (f : Reference → Reference) (hf : ∀ r, (f r).path = r.path) :
    (l.map f).find? (fun r => r.path == p) =
      (l.find? (fun r => r.path == p)).map f := by
  rw [List.find?_map]
  have hfun : ((fun r : Reference => r.path == p) ∘ f) = fun r => r.path == p := by
    funext r
    simp [Function.comp, hf r]
  rw [hfun]
theorem refLoadable_setRefContent (loadRef : String → Option String)
    (sk : Skill) (p q c : String) (hc : (c == "") = false)
    (h : refLoadable loadRef sk p = true) :
    refLoadable loadRef (setRefContent sk q c) p = true := by
  have hget : (setRefContent sk q c).resources.get_reference p =
      (sk.resources.get_reference p).map
        (fun r => if r.path == q then { r with content := some c } else r) := by
    unfold setRefContent SkillResources.get_reference
    exact find?_map_path _ _ _ (fun r => by split <;> rfl)
  unfold refLoadable at h ⊢
  rw [hget]
  cases hfind : sk.resources.get_reference p with
  | none => rw [hfind] at h; exact absurd h (by simp)
  | some r =>
    rw [hfind] at h
    by_cases hpq : (r.path == q) = true
    · simp only [Option.map, if_pos hpq]
      simp [effectiveLoad, pyTruthy, hc]
    · simp only [Option.map, if_neg hpq]
      exact h
theorem loadSeq_loaded_spec (loadRef : String → Option String) :
    ∀ (sk : Skill) (loadedRefs loaded ps : List String),
      ∃ extra, (loadSeq loadRef sk loadedRefs loaded ps).2.1 = loadedRefs ++ extra ∧
        ∀ x ∈ extra, x ∈ ps
  | sk, loadedRefs, loaded, [] => ⟨[], by simp [loadSeq], by simp⟩
  | sk, loadedRefs, loaded, p :: rest => by
    simp only [loadSeq]
    split
    next _ heq =>
      obtain ⟨extra, he, hmem⟩ := loadSeq_loaded_spec loadRef sk loadedRefs loaded rest
      exact ⟨extra, he, fun x hx => List.mem_cons_of_mem p (hmem x hx)⟩
    next o r heq =>
      by_cases htr : pyTruthy (effectiveLoad r loadRef) = true
      · rw [if_pos htr]
        obtain ⟨extra, he, hmem⟩ := loadSeq_loaded_spec loadRef
          (setRefContent sk p ((effectiveLoad r loadRef).getD ""))
          (loadedRefs ++ [p]) (loaded ++ [p]) rest
        refine ⟨p :: extra, ?_, ?_⟩
        · rw [he]
          simp
        · intro x hx
          rcases List.mem_cons.mp hx with rfl | hx2
          · exact List.mem_cons_self x rest
          · exact List.mem_cons_of_mem p (hmem x hx2)
      · rw [if_neg htr]
        obtain ⟨extra, he, hmem⟩ := loadSeq_loaded_spec loadRef sk loadedRefs loaded rest
        exact ⟨extra, he, fun x hx => List.mem_cons_of_mem p (hmem x hx)⟩
theorem loadSeq_mem_of_loadable (loadRef : String → Option String) :
    ∀ (sk : Skill) (loadedRefs loaded ps : List String) (p : String),
      p ∈ ps → refLoadable loadRef sk p = true →
      p ∈ (loadSeq loadRef sk loadedRefs loaded ps).2.1
  | _, _, _, [], p, hp, _ => absurd hp (List.not_mem_nil p)
  | sk, loadedRefs, loaded, q :: rest, p, hp, hload => by
    simp only [loadSeq]
    split
    next _ heq =>
      rcases List.mem_cons.mp hp with rfl | hp2
      · unfold refLoadable at hload
        rw [heq] at hload
        exact absurd hload (by simp)
      · exact loadSeq_mem_of_loadable loadRef sk loadedRefs loaded rest p hp2 hload
    next o r heq =>
      rcases List.mem_cons.mp hp with rfl | hp2
      · unfold refLoadable at hload
        rw [heq] at hload
        rw [if_pos hload]
        obtain ⟨extra, he, _⟩ := loadSeq_loaded_spec loadRef
          (setRefContent sk p ((effectiveLoad r loadRef).getD ""))
          (loadedRefs ++ [p]) (loaded ++ [p]) rest
        rw [he]
        exact List.mem_append.mpr
          (Or.inl (List.mem_append.mpr (Or.inr (List.mem_singleton.mpr rfl))))
      · by_cases htr : pyTruthy (effectiveLoad r loadRef) = true
        · rw [if_pos htr]
          obtain ⟨c, hc, hcne⟩ := pyTruthy_exists _ htr
          have hload2 : refLoadable loadRef
              (setRefContent sk q ((effectiveLoad r loadRef).getD "")) p = true := by
            rw [hc]
            exact refLoadable_setRefContent loadRef sk p q c hcne hload
          exact loadSeq_mem_of_loadable loadRef _ (loadedRefs ++ [q]) (loaded ++ [q])
            rest p hp2 hload2
        · rw [if_neg htr]
          exact loadSeq_mem_of_loadable loadRef sk loadedRefs loaded rest p hp2 hload
theorem loadApplicable_loaded_spec (sk : Skill) (loadedRefs : List String)
    (loadRef : String → Option String) (llmResponse : Option String) :
    ∃ e1 e2,
      (loadApplicableReferences sk loadedRefs loadRef llmResponse).2.1 =
        loadedRefs ++ e1 ++ e2 ∧
      (∀ x ∈ e1, x ∈ (alwaysRefsOf sk loadedRefs).map Reference.path) ∧
      (∀ x ∈ e2, x ∈ toLoadOf sk loadedRefs llmResponse) := by
  unfold loadApplicableReferences
  obtain ⟨e1, he1, hm1⟩ := loadSeq_loaded_spec loadRef sk loadedRefs []
    ((alwaysRefsOf sk loadedRefs).map Reference.path)
  obtain ⟨e2, he2, hm2⟩ := loadSeq_loaded_spec loadRef
    (loadSeq loadRef sk loadedRefs [] ((alwaysRefsOf sk loadedRefs).map Reference.path)).1
    (loadSeq loadRef sk loadedRefs [] ((alwaysRefsOf sk loadedRefs).map Reference.path)).2.1
    (loadSeq loadRef sk loadedRefs [] ((alwaysRefsOf sk loadedRefs).map Reference.path)).2.2
    (toLoadOf sk loadedRefs llmResponse)
  refine ⟨e1, e2, ?_, hm1, hm2⟩
  rw [he2, he1]

theorem loadApplicable_not_mem (sk : Skill) (loadedRefs : List String)
    (loadRef : String → Option String) (llmResponse : Option String) (p : String)
    (h1 : p ∉ loadedRefs)
    (h2 : p ∉ (alwaysRefsOf sk loadedRefs).map Reference.path)
    (h3 : p ∉ toLoadOf sk loadedRefs llmResponse) :
    p ∉ (loadApplicableReferences sk loadedRefs loadRef llmResponse).2.1 := by
  obtain ⟨e1, e2, he, hm1, hm2⟩ :=
    loadApplicable_loaded_spec sk loadedRefs loadRef llmResponse
  rw [he]
  intro hmem
  rcases List.mem_append.mp hmem with hmem2 | hmem2
  · rcases List.mem_append.mp hmem2 with hmem3 | hmem3
    · exact h1 hmem3
    · exact h2 (hm1 p hmem3)
  · exact h3 (hm2 p hmem2)

theorem applyOp_chatTurn_active (autoLoad : Bool) (ctx : ConversationContext)
    (sk : Skill) (sel : Option Skill) (loadRef : String → Option String)
    (llmResponse : Option String) (summarizer : String → Option String)
    (hactive : ctx.activeSkill = some sk) (hauto : autoLoad = true) :
    (applyOp autoLoad ctx (.chatTurn sel loadRef llmResponse summarizer)).loadedReferences =
      (loadApplicableReferences sk ctx.loadedReferences loadRef llmResponse).2.1 := by
  subst hauto
  simp [applyOp, hactive]

theorem llmRefs_pending (sk : Skill) (loadedRefs : List String) :
    ∀ r ∈ llmRefsOf sk loadedRefs, r.path ∉ loadedRefs ∧
      (r.mode == ReferenceMode.alwaysMode) = false ∧
      r ∈ sk.resources.references := by
  intro r hr
  unfold llmRefsOf pendingRefs at hr
  have h1 := List.mem_filter.mp hr
  have h2 := List.mem_filter.mp h1.1
  refine ⟨?_, by simpa using h1.2, h2.1⟩
  have h3 := h2.2
  simpa using h3

theorem evalRefConditions_length (resp : Option String) (n : Nat) :
    (evalRefConditions resp n).length = n := by
  cases resp <;> simp [evalRefConditions]

theorem toLoadOf_none (sk : Skill) (loadedRefs : List String) :
    toLoadOf sk loadedRefs none = [] := by
  unfold toLoadOf
  rw [List.eq_nil_iff_forall_not_mem]
  intro x hx
  obtain ⟨pb, hpb, hif⟩ := List.mem_filterMap.mp hx
  obtain ⟨a, b⟩ := pb
  have hb : b ∈ evalRefConditions none (llmRefsOf sk loadedRefs).length :=
    (List.mem_zip hpb).2
  simp only [evalRefConditions, List.mem_replicate] at hb
  rw [hb.2] at hif
  simp at hif

theorem llmRef_not_always_path (sk : Skill) (loadedRefs : List String)
    (hnodup : (sk.resources.references.map Reference.path).Nodup)
    (rb : Reference) (hrb : rb ∈ llmRefsOf sk loadedRefs) :
    rb.path ∉ (alwaysRefsOf sk loadedRefs).map Reference.path := by
  intro hmem
  obtain ⟨ra, hra, hpath⟩ := List.mem_map.mp hmem
  have hra2 := List.mem_filter.mp hra
  have hramem : ra ∈ sk.resources.references := (List.mem_filter.mp hra2.1).1
  obtain ⟨_, hmode, hrbmem⟩ := llmRefs_pending sk loadedRefs rb hrb
  have : ra = rb :=
    List.inj_on_of_nodup_map hnodup hramem hrbmem hpath
  rw [this] at hra2
  rw [hmode] at hra2
  exact absurd hra2.2 (by simp)

theorem llmRefs_paths_nodup (sk : Skill) (loadedRefs : List String)
    (hnodup : (sk.resources.references.map Reference.path).Nodup) :
    ((llmRefsOf sk loadedRefs).map Reference.path).Nodup := by
  have hsub : (llmRefsOf sk loadedRefs).Sublist sk.resources.references :=
    (List.filter_sublist _).trans (List.filter_sublist _)
  exact List.Nodup.sublist (hsub.map Reference.path) hnodup

theorem toLoad_not_mem_of_false (sk : Skill) (loadedRefs : List String)
    (llmResponse : Option String)
    (hnodup : (sk.resources.references.map Reference.path).Nodup)
    (pb : Reference × Bool)
    (hpb : pb ∈ (llmRefsOf sk loadedRefs).zip
      (evalRefConditions llmResponse (llmRefsOf sk loadedRefs).length))
    (hfalse : pb.2 = false) :
    pb.1.path ∉ toLoadOf sk loadedRefs llmResponse := by
  intro hmem
  obtain ⟨i, hi, hget⟩ := List.mem_iff_getElem.mp hpb
  obtain ⟨pb', hpb', hif⟩ := List.mem_filterMap.mp hmem
  obtain ⟨j, hj, hget'⟩ := List.mem_iff_getElem.mp hpb'
  have hil : i < (llmRefsOf sk loadedRefs).length := by
    rw [List.length_zip, lt_min_iff] at hi
    exact hi.1
  have hie : i < (evalRefConditions llmResponse (llmRefsOf sk loadedRefs).length).length := by
    rw [List.length_zip, lt_min_iff] at hi
    exact hi.2
  have hjl : j < ((llmRefsOf sk loadedRefs).map Reference.path).length := by
    rw [List.length_zip, lt_min_iff] at hj
    exact hj.1
  have hje : j < (evalRefConditions llmResponse (llmRefsOf sk loadedRefs).length).length := by
    rw [List.length_zip, lt_min_iff] at hj
    exact hj.2
  rw [List.getElem_zip] at hget hget'
  have h1 : (llmRefsOf sk loadedRefs).get ⟨i, hil⟩ = pb.1 := by
    have := congrArg Prod.fst hget
    simpa using this
  have h2 : (evalRefConditions llmResponse (llmRefsOf sk loadedRefs).length).get ⟨i, hie⟩ = pb.2 := by
    have := congrArg Prod.snd hget
    simpa using this
  have h3 : ((llmRefsOf sk loadedRefs).map Reference.path).get ⟨j, hjl⟩ = pb'.1 := by
    have := congrArg Prod.fst hget'
    simpa using this
  have h4 : (evalRefConditions llmResponse (llmRefsOf sk loadedRefs).length).get ⟨j, hje⟩ = pb'.2 := by
    have := congrArg Prod.snd hget'
    simpa using this
  have hptrue : pb'.2 = true := by
    by_contra hfalse2
    rw [if_neg (by simpa using hfalse2)] at hif
    cases hif
  have hp1 : pb'.1 = pb.1.path := by
    rw [if_pos (by simpa using hptrue)] at hif
    simpa using hif
  have hpathsnodup := llmRefs_paths_nodup sk loadedRefs hnodup
  have hil2 : i < ((llmRefsOf sk loadedRefs).map Reference.path).length := by
    simpa using hil
  have hgi : ((llmRefsOf sk loadedRefs).map Reference.path).get ⟨i, hil2⟩ = pb.1.path := by
    rw [List.get_map]
    rw [show (llmRefsOf sk loadedRefs).get ⟨i, hil⟩ = pb.1 from h1]
  obtain rfl : j = i := by
    have hij : (⟨j, hjl⟩ : Fin _) = ⟨i, hil2⟩ := by
      apply List.nodup_iff_injective_get.mp hpathsnodup
      rw [h3, hp1, hgi]
    have := congrArg Fin.val hij
    simpa using this
  have heqp : (evalRefConditions llmResponse (llmRefsOf sk loadedRefs).length).get ⟨j, hie⟩ =
      (evalRefConditions llmResponse (llmRefsOf sk loadedRefs).length).get ⟨j, hje⟩ := rfl
  have hcontra : pb.2 = pb'.2 := by
    rw [← h2, heqp, h4]
  rw [hfalse, hptrue] at hcontra
  cases hcontra

theorem evalRefConditions_parse (response : String) (n i : Nat) (hi : i < n)
    (h : ∀ line, findAnswerLine (pySplitNl (pyTrim response)) i = some line →
       strContains (pyLower line) "yes" = false) :
    (evalRefConditions (some response) n).getD i true = false := by
  unfold evalRefConditions
  rw [List.getD_eq_getElem?_getD, List.getElem?_map]
  rw [List.getElem?_range hi]
  simp only [Option.map_some', Option.getD_some]
  cases hline : findAnswerLine (pySplitNl (pyTrim response)) i with
  | none => rfl
  | some line => exact h line hline

/-- Claim C3: with a skill active and auto reference loading enabled:
every ALWAYS-mode reference whose file resolves to truthy content is in
`loaded_references` after the turn, for every grading response (hence
regardless of query content); an LLM-graded reference whose positional
answer is NO is not loaded; when the grading call raises, no graded
reference is loaded; and a response whose answer line for a reference
lacks "yes" (or parses to no line) yields a NO answer. -/
theorem c3_reference_loading_policy
    (ctx : ConversationContext) (sk : Skill) (sel : Option Skill)
    (loadRef : String → Option String) (llmResponse : Option String)
    (summarizer : String → Option String)
    (hactive : ctx.activeSkill = some sk)
    (hnodup : (sk.resources.references.map Reference.path).Nodup) :
    (∀ ra ∈ sk.resources.references, ra.mode = .alwaysMode →
       refLoadable loadRef sk ra.path = true →
       ra.path ∈ (applyOp true ctx
         (.chatTurn sel loadRef llmResponse summarizer)).loadedReferences) ∧
    (∀ pb ∈ (llmRefsOf sk ctx.loadedReferences).zip
        (evalRefConditions llmResponse (llmRefsOf sk ctx.loadedReferences).length),
       pb.2 = false →
       pb.1.path ∉ (applyOp true ctx
         (.chatTurn sel loadRef llmResponse summarizer)).loadedReferences) ∧
    (llmResponse = none →
       ∀ rb ∈ llmRefsOf sk ctx.loadedReferences,
         rb.path ∉ (applyOp true ctx
           (.chatTurn sel loadRef llmResponse summarizer)).loadedReferences) ∧
    (∀ (response : String) (n i : Nat), i < n →
       (∀ line, findAnswerLine (pySplitNl (pyTrim response)) i = some line →
          strContains (pyLower line) "yes" = false) →
       (evalRefConditions (some response) n).getD i true = false) := by
  have hup := applyOp_chatTurn_active true ctx sk sel loadRef llmResponse summarizer
    hactive rfl
  refine ⟨?_, ?_, ?_, evalRefConditions_parse⟩
  · intro ra hmem hmode hload
    rw [hup]
    by_cases hin : ra.path ∈ ctx.loadedReferences
    · obtain ⟨e1, e2, he, _, _⟩ :=
        loadApplicable_loaded_spec sk ctx.loadedReferences loadRef llmResponse
      rw [he]
      exact List.mem_append.mpr (Or.inl (List.mem_append.mpr (Or.inl hin)))
    · have hpend : ra ∈ pendingRefs sk ctx.loadedReferences := by
        refine List.mem_filter.mpr ⟨hmem, ?_⟩
        simp [hin]
      have halways : ra ∈ alwaysRefsOf sk ctx.loadedReferences := by
        refine List.mem_filter.mpr ⟨hpend, ?_⟩
        rw [hmode]
        decide
      have hpath : ra.path ∈ (alwaysRefsOf sk ctx.loadedReferences).map Reference.path :=
        List.mem_map.mpr ⟨ra, halways, rfl⟩
      unfold loadApplicableReferences
      have h1 : ra.path ∈ (loadSeq loadRef sk ctx.loadedReferences []
          ((alwaysRefsOf sk ctx.loadedReferences).map Reference.path)).2.1 :=
        loadSeq_mem_of_loadable loadRef sk ctx.loadedReferences [] _ ra.path hpath hload
      obtain ⟨e2, he2, _⟩ := loadSeq_loaded_spec loadRef
        (loadSeq loadRef sk ctx.loadedReferences []
          ((alwaysRefsOf sk ctx.loadedReferences).map Reference.path)).1
        (loadSeq loadRef sk ctx.loadedReferences []
          ((alwaysRefsOf sk ctx.loadedReferences).map Reference.path)).2.1
        (loadSeq loadRef sk ctx.loadedReferences []
          ((alwaysRefsOf sk ctx.loadedReferences).map Reference.path)).2.2
        (toLoadOf sk ctx.loadedReferences llmResponse)
      rw [he2]
      exact List.mem_append.mpr (Or.inl h1)
  · intro pb hpb hfalse
    rw [hup]
    have hrb : pb.1 ∈ llmRefsOf sk ctx.loadedReferences := (List.of_mem_zip hpb).1
    obtain ⟨hnl, _, _⟩ := llmRefs_pending sk ctx.loadedReferences pb.1 hrb
    exact loadApplicable_not_mem sk ctx.loadedReferences loadRef llmResponse pb.1.path
      hnl (llmRef_not_always_path sk ctx.loadedReferences hnodup pb.1 hrb)
      (toLoad_not_mem_of_false sk ctx.loadedReferences llmResponse hnodup pb hpb hfalse)
  · intro hnone rb hrb
    subst hnone
    rw [hup]
    obtain ⟨hnl, _, _⟩ := llmRefs_pending sk ctx.loadedReferences rb hrb
    refine loadApplicable_not_mem sk ctx.loadedReferences loadRef none rb.path hnl
      (llmRef_not_always_path sk ctx.loadedReferences hnodup rb hrb) ?_
    rw [toLoadOf_none]
    exact List.not_mem_nil _

/-- Witness for C3: with `policySkill` active, a turn graded `"1. NO"`
loads the ALWAYS reference and not the EXPLICIT one. -/
theorem c3_reference_loading_policy_witness :
    (policyCtx.activeSkill = some policySkill ∧
     (policySkill.resources.references.map Reference.path).Nodup ∧
     ({ path := "references/a.md", mode := .alwaysMode } : Reference) ∈
       policySkill.resources.references ∧
     refLoadable policyLoad policySkill "references/a.md" = true ∧
     (({ path := "references/e.md", condition := "mentions budget", mode := .explicitMode } : Reference), false) ∈
       (llmRefsOf policySkill policyCtx.loadedReferences).zip
         (evalRefConditions (some "1. NO")
           (llmRefsOf policySkill policyCtx.loadedReferences).length)) ∧
    "references/a.md" ∈ (applyOp true policyCtx
      (.chatTurn none policyLoad (some "1. NO") (fun _ => none))).loadedReferences ∧
    "references/e.md" ∉ (applyOp true policyCtx
      (.chatTurn none policyLoad (some "1. NO") (fun _ => none))).loadedReferences := by
  have T := c3_reference_loading_policy policyCtx policySkill none policyLoad
    (some "1. NO") (fun _ => none) rfl (by decide)
  refine ⟨⟨rfl, by decide, by decide, by decide, by decide⟩, ?_, ?_⟩
  · exact T.1 { path := "references/a.md", mode := .alwaysMode } (by decide) rfl (by decide)
  · exact T.2.1 ({ path := "references/e.md", condition := "mentions budget", mode := .explicitMode }, false)
      (by decide) rfl

theorem applyOp_loaded_grows (autoLoad : Bool) (ctx : ConversationContext)
    (op : AgentOp) (h : op.isDeselect = false) :
    ∃ extra, (applyOp autoLoad ctx op).loadedReferences =
      ctx.loadedReferences ++ extra := by
  cases op with
  | selectSkill sk => exact ⟨[], by simp [applyOp]⟩
  | deselectSkill => simp [AgentOp.isDeselect] at h
  | chatTurn sel loadRef llmResp summ =>
    cases hac : ctx.activeSkill with
    | some sk =>
      cases autoLoad with
      | true =>
        obtain ⟨e1, e2, he, _, _⟩ :=
          loadApplicable_loaded_spec sk ctx.loadedReferences loadRef llmResp
        refine ⟨e1 ++ e2, ?_⟩
        rw [applyOp_chatTurn_active true ctx sk sel loadRef llmResp summ hac rfl,
          he, List.append_assoc]
      | false =>
        refine ⟨[], by simp [applyOp, hac]⟩
    | none =>
      cases sel with
      | none => exact ⟨[], by simp [applyOp, hac]⟩
      | some sk2 =>
        cases autoLoad with
        | false => exact ⟨[], by simp [applyOp, hac]⟩
        | true =>
          obtain ⟨e1, e2, he, _, _⟩ :=
            loadApplicable_loaded_spec sk2 ctx.loadedReferences loadRef llmResp
          refine ⟨e1 ++ e2, ?_⟩
          simp only [applyOp, hac]
          rw [he, List.append_assoc, if_pos trivial]

/-- Claim C10: `loaded_references` only grows across any sequence of
orchestrator operations containing no deselect (each operation appends,
never removes), while deselecting a skill clears `loaded_references` but
leaves every cached summary in `reference_summaries` intact. -/
theorem c10_context_invariant (autoLoad : Bool) (ctx : ConversationContext)
    (ops : List AgentOp) (h : ops.all (fun o => !o.isDeselect) = true) :
    ctx.loadedReferences <+: (applyOps autoLoad ctx ops).loadedReferences ∧
    (applyOp autoLoad ctx .deselectSkill).referenceSummaries =
      ctx.referenceSummaries ∧
    (applyOp autoLoad ctx .deselectSkill).loadedReferences = [] := by
  refine ⟨?_, rfl, rfl⟩
  induction ops generalizing ctx with
  | nil => exact List.prefix_rfl
  | cons op rest ih =>
    rw [List.all_cons, Bool.and_eq_true] at h
    obtain ⟨extra, he⟩ := applyOp_loaded_grows autoLoad ctx op (by simpa using h.1)
    have hstep : ctx.loadedReferences <+: (applyOp autoLoad ctx op).loadedReferences :=
      ⟨extra, he.symm⟩
    exact hstep.trans (ih (applyOp autoLoad ctx op) h.2)

/-- Witness for C10 on the demo context after one loading turn, running a
further loading turn: the previously loaded references stay a prefix, and
deselection keeps the summaries while clearing the loaded list. -/
theorem c10_context_invariant_witness :
    ([AgentOp.chatTurn none demoLoad (some "1. YES") (fun _ => some "ZSUMZ")].all
      (fun o => !o.isDeselect) = true) ∧
    demoCtx.loadedReferences <+: (applyOps true demoCtx
      [AgentOp.chatTurn none demoLoad (some "1. YES") (fun _ => some "ZSUMZ")]).loadedReferences ∧
    (applyOp true demoCtx .deselectSkill).referenceSummaries =
      demoCtx.referenceSummaries ∧
    (applyOp true demoCtx .deselectSkill).loadedReferences = [] := by
  have T := c10_context_invariant true demoCtx
    [AgentOp.chatTurn none demoLoad (some "1. YES") (fun _ => some "ZSUMZ")]
    (by decide)
  exact ⟨by decide, T.1, T.2.1, T.2.2⟩

/-- Claim C2 counterexample: after a turn in which `demoSkill`'s reference
was loaded and summarised, the next turn's system prompt (no recall)
contains the reference's FULL content `"QDOCQ"` and does NOT contain its
summary `"ZSUMZ"` — because `_build_system_prompt` drops cached summaries
for paths in the session-cumulative `loaded_references`, while
`build_active_skill_prompt` re-injects the full content of every loaded
reference of the active skill. -/
theorem c2_summary_suppressed_counterexample :
    demoCtx.activeSkill = some demoLoadedSkill ∧
    ("references/r.md", "ZSUMZ") ∈ demoCtx.referenceSummaries ∧
    "references/r.md" ∈ demoCtx.loadedReferences ∧
    strContains (buildSystemPrompt "" demoCtx [] []) "QDOCQ" = true ∧
    strContains (buildSystemPrompt "" demoCtx [] []) "ZSUMZ" = false := by
  refine ⟨by decide, by decide, by decide, by decide, by decide⟩

/-- Claim C2 (amended): while a reference of the active skill is loaded
and summarised, a later turn's prompt contains its FULL content (via the
active-skill section) and its cached summary entry is omitted from the
historical-summaries section; only after the skill is deselected does the
summary entry survive filtering and appear in the prompt. -/
theorem c2_summary_vs_full_content
    (basePrompt : String) (ctx : ConversationContext) (sk : Skill)
    (recalledRefs : List (String × String)) (allMetadata : List (String × String))
    (r : Reference) (c summary : String)
    (hactive : ctx.activeSkill = some sk)
    (hr : r ∈ sk.resources.references)
    (hc : r.content = some c) (hcne : ¬(c = ""))
    (hload : r.path ∈ ctx.loadedReferences)
    (hsum : (r.path, summary) ∈ ctx.referenceSummaries)
    (hnorecall : r.path ∉ recalledRefs.map Prod.fst) :
    (∀ e ∈ historicalSummaries ctx (recalledRefs.map Prod.fst), e.1 ≠ r.path) ∧
    strContains (buildSystemPrompt basePrompt ctx recalledRefs allMetadata) c = true ∧
    (r.path, summary) ∈ historicalSummaries (applyOp true ctx .deselectSkill) [] ∧
    strContains (buildSystemPrompt basePrompt (applyOp true ctx .deselectSkill) []
      allMetadata) summary = true := by
  refine ⟨?_, ?_, ?_, ?_⟩
  · -- the summary entry for a path with full content loaded is omitted
    intro e he hcontra
    have hp := (List.mem_filter.mp he).2
    rw [hcontra] at hp
    simp [hload, hnorecall] at hp
  · -- the full content appears via the active-skill section
    have hrefpart : ("\n## Reference: " ++ r.path ++ "\n\n" ++ c) ∈
        (sk.resources.references.filterMap fun rr =>
          if rr.is_loaded && pyTruthy rr.content then
            some ("\n## Reference: " ++ rr.path ++ "\n\n" ++ rr.content.getD "")
          else none) := by
      refine List.mem_filterMap.mpr ⟨r, hr, ?_⟩
      simp [Reference.is_loaded, hc, pyTruthy, hcne]
    have hcontains : strContains ("\n## Reference: " ++ r.path ++ "\n\n" ++ c) c = true :=
      strContains_append_of_right _ _ _ (strContains_self c)
    have hskill : strContains (buildActiveSkillPrompt sk true true) c = true := by
      unfold buildActiveSkillPrompt
      refine strContains_pyJoin_of_mem "\n" c _ _ ?_ hcontains
      refine List.mem_append.mpr (Or.inr ?_)
      rw [if_pos rfl]
      exact hrefpart
    unfold buildSystemPrompt
    rw [hactive]
    refine strContains_pyJoin_of_mem "\n\n" c _ _ ?_ hskill
    refine List.mem_append.mpr (Or.inr ?_)
    exact List.mem_singleton.mpr rfl
  · -- after deselect, the summary entry is retained
    refine List.mem_filter.mpr ⟨hsum, ?_⟩
    simp [applyOp]
  · -- and it appears in the next prompt's summaries section
    have hmem2 : (r.path, summary) ∈ historicalSummaries
        (applyOp true ctx .deselectSkill)
        (List.map Prod.fst ([] : List (String × String))) := by
      refine List.mem_filter.mpr ⟨hsum, ?_⟩
      simp [applyOp]
    have hline : ("- " ++ r.path ++ ": " ++ summary) ∈
        (historicalSummaries (applyOp true ctx .deselectSkill)
          (List.map Prod.fst ([] : List (String × String)))).map
          (fun e => "- " ++ e.1 ++ ": " ++ e.2) :=
      List.mem_map.mpr ⟨(r.path, summary), hmem2, rfl⟩
    have htext : strContains (pyJoin "\n"
        ((historicalSummaries (applyOp true ctx .deselectSkill)
          (List.map Prod.fst ([] : List (String × String)))).map
          (fun e => "- " ++ e.1 ++ ": " ++ e.2)))
        summary = true :=
      strContains_pyJoin_of_mem "\n" summary _ _ hline
        (strContains_append_of_right _ _ _ (strContains_self summary))
    have hne : (historicalSummaries (applyOp true ctx .deselectSkill)
        (List.map Prod.fst ([] : List (String × String)))).isEmpty = false := by
      cases hh : historicalSummaries (applyOp true ctx .deselectSkill)
          (List.map Prod.fst ([] : List (String × String))) with
      | nil => rw [hh] at hmem2; cases hmem2
      | cons a l => rfl
    unfold buildSystemPrompt
    refine strContains_pyJoin_of_mem "\n\n" summary _
      ("## 之前加载的参考资料摘要（可用于回顾）\n" ++ pyJoin "\n"
        ((historicalSummaries (applyOp true ctx .deselectSkill)
          (List.map Prod.fst ([] : List (String × String)))).map
          (fun e => "- " ++ e.1 ++ ": " ++ e.2))) ?_
      (strContains_append_of_right _ _ _ htext)
    refine List.mem_append.mpr (Or.inl ?_)
    refine List.mem_append.mpr (Or.inl ?_)
    refine List.mem_append.mpr (Or.inr ?_)
    rw [if_pos (by rw [hne]; rfl)]
    exact List.mem_singleton.mpr rfl

/-- Witness for the amended C2 on the demo scenario: with the reference
loaded (content `"QDOCQ"`) and summarised (`"ZSUMZ"`), the prompt shows
the full content and omits the summary entry; after deselecting, the
summary entry survives and appears in the prompt. -/
theorem c2_summary_vs_full_content_witness :
    (∀ e ∈ historicalSummaries demoCtx
        (List.map Prod.fst ([] : List (String × String))),
      e.1 ≠ "references/r.md") ∧
    strContains (buildSystemPrompt "" demoCtx [] []) "QDOCQ" = true ∧
    ("references/r.md", "ZSUMZ") ∈
      historicalSummaries (applyOp true demoCtx .deselectSkill) [] ∧
    strContains (buildSystemPrompt "" (applyOp true demoCtx .deselectSkill) [] [])
      "ZSUMZ" = true :=
  c2_summary_vs_full_content "" demoCtx demoLoadedSkill [] []
    { path := "references/r.md", mode := .implicitMode, content := some "QDOCQ" }
    "QDOCQ" "ZSUMZ" (by decide) (by decide) rfl (by decide) (by decide)
    (by decide) (by decide)

theorem updateBest_fst (b : ℚ × String) (s : ℚ) (tag : String) :
    (updateBest b s tag).1 = max b.1 s := by
  unfold updateBest
  rcases lt_or_ge b.1 s with h | h
  · rw [if_pos h, max_eq_right h.le]
  · rw [if_neg (not_lt.mpr h), max_eq_left h]

theorem fst_le_ite_updateBest (b : ℚ × String) (c : Prop) [Decidable c]
    (s : ℚ) (tag : String) :
    b.1 ≤ (if c then updateBest b s tag else b).1 := by
  split
  · rw [updateBest_fst]; exact le_max_left _ _
  · exact le_refl _

theorem fst_ite_updateBest_le (b : ℚ × String) (c : Prop) [Decidable c]
    (s : ℚ) (tag : String) (x : ℚ) (hb : b.1 ≤ x) (hs : s ≤ x) :
    (if c then updateBest b s tag else b).1 ≤ x := by
  split
  · rw [updateBest_fst]; exact max_le hb hs
  · exact hb

theorem triggerFold_fst_mono (qL : String) (qW : List String)
    (b : ℚ × String) (ts : List String) :
    b.1 ≤ (triggerFold qL qW b ts).1 := by
  induction ts generalizing b with
  | nil => exact le_refl _
  | cons t rest ih =>
    simp only [triggerFold]
    exact le_trans
      (le_trans (fst_le_ite_updateBest _ _ _ _) (fst_le_ite_updateBest _ _ _ _))
      (ih _)

theorem triggerFold_fst_le (qL : String) (qW : List String)
    (b : ℚ × String) (ts : List String) :
    (triggerFold qL qW b ts).1 ≤ max b.1 PARTIAL_TRIGGER_SCORE := by
  induction ts generalizing b with
  | nil => exact le_max_left _ _
  | cons t rest ih =>
    simp only [triggerFold]
    refine le_trans (ih _) (max_le ?_ (le_max_right _ _))
    refine fst_ite_updateBest_le _ _ _ _ _ ?_ ?_
    · exact fst_ite_updateBest_le _ _ _ _ _ (le_max_left _ _) (le_max_right _ _)
    · exact le_trans (by norm_num [PARTIAL_TRIGGER_SCORE]) (le_max_right b.1 _)

theorem triggerFold_fst_le_of_no_sub (qL : String) (qW : List String)
    (b : ℚ × String) (ts : List String)
    (h : ∀ t ∈ ts, strContains qL (pyLower t) = false) :
    (triggerFold qL qW b ts).1 ≤ max b.1 (PARTIAL_TRIGGER_SCORE * 0.9) := by
  induction ts generalizing b with
  | nil => exact le_max_left _ _
  | cons t rest ih =>
    simp only [triggerFold]
    rw [if_neg (show ¬(strContains qL (pyLower t) = true) by
      rw [h t (List.mem_cons_self t rest)]; exact Bool.false_ne_true)]
    refine le_trans (ih _ (fun x hx => h x (List.mem_cons_of_mem t hx)))
      (max_le ?_ (le_max_right _ _))
    exact fst_ite_updateBest_le _ _ _ _ _ (le_max_left _ _) (le_max_right _ _)

theorem triggerFold_fst_ge_of_sub (qL : String) (qW : List String)
    (b : ℚ × String) (ts : List String) (t : String)
    (ht : t ∈ ts) (hsub : strContains qL (pyLower t) = true) :
    PARTIAL_TRIGGER_SCORE ≤ (triggerFold qL qW b ts).1 := by
  induction ts generalizing b with
  | nil => cases ht
  | cons u rest ih =>
    simp only [triggerFold]
    rcases List.mem_cons.mp ht with heq | hmem
    · subst heq
      rw [if_pos hsub]
      refine le_trans ?_ (triggerFold_fst_mono _ _ _ _)
      refine le_trans ?_ (fst_le_ite_updateBest _ _ _ _)
      rw [updateBest_fst]
      exact le_max_right _ _
    · exact ih _ hmem

theorem triggerFold_fst_ge_of_words (qL : String) (qW : List String)
    (b : ℚ × String) (ts : List String) (t : String)
    (ht : t ∈ ts)
    (hw : (!(tokenize (pyLower t)).isEmpty &&
      (tokenize (pyLower t)).all fun w => qW.contains w) = true) :
    PARTIAL_TRIGGER_SCORE * 0.9 ≤ (triggerFold qL qW b ts).1 := by
  induction ts generalizing b with
  | nil => cases ht
  | cons u rest ih =>
    simp only [triggerFold]
    rcases List.mem_cons.mp ht with heq | hmem
    · subst heq
      rw [if_pos hw]
      refine le_trans ?_ (triggerFold_fst_mono _ _ _ _)
      rw [updateBest_fst]
      exact le_max_right _ _
    · exact ih _ hmem

theorem triggerFold_eq_of_none (qL : String) (qW : List String)
    (b : ℚ × String) (ts : List String)
    (h : ∀ t ∈ ts, strContains qL (pyLower t) = false ∧
      (!(tokenize (pyLower t)).isEmpty &&
        (tokenize (pyLower t)).all fun w => qW.contains w) = false) :
    triggerFold qL qW b ts = b := by
  induction ts generalizing b with
  | nil => rfl
  | cons t rest ih =>
    simp only [triggerFold]
    obtain ⟨h1, h2⟩ := h t (List.mem_cons_self t rest)
    rw [if_neg (show ¬(strContains qL (pyLower t) = true) by
          rw [h1]; exact Bool.false_ne_true),
        if_neg (show ¬((!(tokenize (pyLower t)).isEmpty &&
            (tokenize (pyLower t)).all fun w => qW.contains w) = true) by
          rw [h2]; exact Bool.false_ne_true)]
    exact ih b (fun x hx => h x (List.mem_cons_of_mem t hx))

theorem nameStage_fst_mono (qL : String) (qW : List String)
    (m : SkillMetadata) (b : ℚ × String) :
    b.1 ≤ (nameStage qL qW m b).1 := by
  simp only [nameStage]
  split
  · rw [updateBest_fst]; exact le_max_left _ _
  · split
    · rw [updateBest_fst]; exact le_max_left _ _
    · exact le_refl _

theorem nameStage_fst_le (qL : String) (qW : List String)
    (m : SkillMetadata) (b : ℚ × String) :
    (nameStage qL qW m b).1 ≤ max b.1 NAME_MATCH_SCORE := by
  simp only [nameStage]
  split
  · rw [updateBest_fst]
  · split
    · rw [updateBest_fst]
      exact max_le_max (le_refl _) (by norm_num [NAME_MATCH_SCORE])
    · exact le_max_left _ _

theorem nameStage_eq_of_none (qL : String) (qW : List String)
    (m : SkillMetadata) (b : ℚ × String)
    (h1 : (strContains qL (pyReplaceChar (pyReplaceChar (pyLower m.name) '-' ' ') '_' ' ') ||
      strContains (pyReplaceChar (pyReplaceChar (pyLower m.name) '-' ' ') '_' ' ') qL) = false)
    (h2 : (!(tokenize (pyReplaceChar (pyReplaceChar (pyLower m.name) '-' ' ') '_' ' ')).isEmpty &&
      (tokenize (pyReplaceChar (pyReplaceChar (pyLower m.name) '-' ' ') '_' ' ')).all
        fun w => qW.contains w) = false) :
    nameStage qL qW m b = b := by
  simp only [nameStage]
  rw [if_neg (show ¬((strContains qL (pyReplaceChar (pyReplaceChar (pyLower m.name) '-' ' ') '_' ' ') ||
        strContains (pyReplaceChar (pyReplaceChar (pyLower m.name) '-' ' ') '_' ' ') qL) = true) by
      rw [h1]; exact Bool.false_ne_true),
    if_neg (show ¬((!(tokenize (pyReplaceChar (pyReplaceChar (pyLower m.name) '-' ' ') '_' ' ')).isEmpty &&
        (tokenize (pyReplaceChar (pyReplaceChar (pyLower m.name) '-' ' ') '_' ' ')).all
          fun w => qW.contains w) = true) by
      rw [h2]; exact Bool.false_ne_true)]

theorem descStage_fst_mono (qW : List String) (m : SkillMetadata) (b : ℚ × String) :
    b.1 ≤ (descStage qW m b).1 := by
  simp only [descStage]
  split
  · rw [updateBest_fst]; exact le_max_left _ _
  · exact le_refl _

theorem descStage_ratio_le (m : SkillMetadata) (qW : List String) :
    DESCRIPTION_MATCH_SCORE * (0.5 +
      ((((extractKeywords m.description).filter (fun w => qW.contains w)).length : ℚ) /
        (max ((extractKeywords m.description).length : ℚ) 1)) * 0.5) ≤
      DESCRIPTION_MATCH_SCORE := by
  have hk : ((((extractKeywords m.description).filter (fun w => qW.contains w)).length : ℚ)) ≤
      max ((extractKeywords m.description).length : ℚ) 1 := by
    refine le_trans ?_ (le_max_left _ 1)
    exact_mod_cast List.length_filter_le _ _
  have hd : (0 : ℚ) < max ((extractKeywords m.description).length : ℚ) 1 :=
    lt_of_lt_of_le zero_lt_one (le_max_right _ _)
  have hratio : (((extractKeywords m.description).filter (fun w => qW.contains w)).length : ℚ) /
      max ((extractKeywords m.description).length : ℚ) 1 ≤ 1 :=
    (div_le_one hd).mpr hk
  unfold DESCRIPTION_MATCH_SCORE
  nlinarith [hratio]

theorem descStage_fst_le (qW : List String) (m : SkillMetadata) (b : ℚ × String) :
    (descStage qW m b).1 ≤ max b.1 DESCRIPTION_MATCH_SCORE := by
  simp only [descStage]
  split
  · rw [updateBest_fst]
    exact max_le_max (le_refl _) (descStage_ratio_le m qW)
  · exact le_max_left _ _

theorem tagFold_fst_mono (qL : String) (b : ℚ × String) (tags : List String) :
    b.1 ≤ (tagFold qL b tags).1 := by
  induction tags generalizing b with
  | nil => exact le_refl _
  | cons tg rest ih =>
    simp only [tagFold]
    exact le_trans (fst_le_ite_updateBest _ _ _ _) (ih _)

theorem tagFold_fst_le (qL : String) (b : ℚ × String) (tags : List String) :
    (tagFold qL b tags).1 ≤ max b.1 TAG_MATCH_SCORE := by
  induction tags generalizing b with
  | nil => exact le_max_left _ _
  | cons tg rest ih =>
    simp only [tagFold]
    refine le_trans (ih _) (max_le ?_ (le_max_right _ _))
    exact fst_ite_updateBest_le _ _ _ _ _ (le_max_left _ _) (le_max_right _ _)

theorem tagFold_eq_of_none (qL : String) (b : ℚ × String) (tags : List String)
    (h : ∀ tg ∈ tags, strContains qL (pyLower tg) = false) :
    tagFold qL b tags = b := by
  induction tags generalizing b with
  | nil => rfl
  | cons tg rest ih =>
    simp only [tagFold]
    rw [if_neg (show ¬(strContains qL (pyLower tg) = true) by
      rw [h tg (List.mem_cons_self tg rest)]; exact Bool.false_ne_true)]
    exact ih b (fun x hx => h x (List.mem_cons_of_mem tg hx))

theorem le_max_pin {b y c v : ℚ} (hb : b = v) (hyv : y ≤ v)
    (hmono : b ≤ c) (hle : c ≤ max b y) : c = v := by
  subst hb
  exact le_antisymm (by rwa [max_eq_left hyv] at hle) hmono

theorem descStage_fst_pos (qW : List String) (m : SkillMetadata) (b : ℚ × String)
    (hb : b.1 = 0)
    (h : (extractKeywords m.description).filter (fun w => qW.contains w) ≠ []) :
    0 < (descStage qW m b).1 ∧ (descStage qW m b).1 ≤ DESCRIPTION_MATCH_SCORE := by
  have hle : (descStage qW m b).1 ≤ DESCRIPTION_MATCH_SCORE := by
    refine le_trans (descStage_fst_le qW m b) ?_
    rw [hb, max_eq_right]
    norm_num [DESCRIPTION_MATCH_SCORE]
  refine ⟨?_, hle⟩
  simp only [descStage]
  have hne : ((extractKeywords m.description).filter (fun w => qW.contains w)).isEmpty = false := by
    cases hc : (extractKeywords m.description).filter (fun w => qW.contains w) with
    | nil => exact absurd hc h
    | cons a l => rfl
  rw [if_pos (show (!((extractKeywords m.description).filter
      (fun w => qW.contains w)).isEmpty) = true by rw [hne]; rfl)]
  rw [updateBest_fst, hb]
  have hlen : (0 : ℚ) <
      ((((extractKeywords m.description).filter (fun w => qW.contains w)).length : ℕ) : ℚ) := by
    have hp : 0 < ((extractKeywords m.description).filter (fun w => qW.contains w)).length :=
      List.length_pos.mpr h
    exact_mod_cast hp
  have hd : (0 : ℚ) < max ((extractKeywords m.description).length : ℚ) 1 :=
    lt_of_lt_of_le zero_lt_one (le_max_right _ _)
  have hratio : (0 : ℚ) <
      (((extractKeywords m.description).filter (fun w => qW.contains w)).length : ℚ) /
        max ((extractKeywords m.description).length : ℚ) 1 :=
    div_pos hlen hd
  rw [lt_max_iff]
  right
  unfold DESCRIPTION_MATCH_SCORE
  nlinarith [hratio]

/-- Claim C4: for one query, an exact-trigger candidate scores strictly
above a substring-trigger candidate, which scores strictly above a
word-subset-trigger candidate, which scores strictly above a candidate
matched only by description-keyword overlap. -/
theorem c4_matcher_tier_ordering
    (q : String) (m1 m2 m3 m4 : SkillMetadata) (t1 t2 t3 : String)
    (qL : String) (qWords : List String)
    (hqL : qL = pyTrim (pyLower q)) (hqW : qWords = tokenize qL)
    (hm1 : m1.triggers.find? (fun t => pyLower t == qL) = some t1)
    (hm2none : m2.triggers.find? (fun t => pyLower t == qL) = none)
    (ht2 : t2 ∈ m2.triggers) (ht2sub : strContains qL (pyLower t2) = true)
    (hm3none : m3.triggers.find? (fun t => pyLower t == qL) = none)
    (hm3nosub : ∀ t ∈ m3.triggers, strContains qL (pyLower t) = false)
    (ht3 : t3 ∈ m3.triggers)
    (ht3w : (!(tokenize (pyLower t3)).isEmpty &&
      (tokenize (pyLower t3)).all fun w => qWords.contains w) = true)
    (hm4none : m4.triggers.find? (fun t => pyLower t == qL) = none)
    (hm4trig : ∀ t ∈ m4.triggers, strContains qL (pyLower t) = false ∧
      (!(tokenize (pyLower t)).isEmpty &&
        (tokenize (pyLower t)).all fun w => qWords.contains w) = false)
    (hm4name1 : (strContains qL (pyReplaceChar (pyReplaceChar (pyLower m4.name) '-' ' ') '_' ' ') ||
      strContains (pyReplaceChar (pyReplaceChar (pyLower m4.name) '-' ' ') '_' ' ') qL) = false)
    (hm4name2 : (!(tokenize (pyReplaceChar (pyReplaceChar (pyLower m4.name) '-' ' ') '_' ' ')).isEmpty &&
      (tokenize (pyReplaceChar (pyReplaceChar (pyLower m4.name) '-' ' ') '_' ' ')).all
        fun w => qWords.contains w) = false)
    (hm4desc : (extractKeywords m4.description).filter (fun w => qWords.contains w) ≠ [])
    (hm4tags : ∀ tg ∈ m4.tags, strContains qL (pyLower tg) = false) :
    ∃ r1 r2 r3 r4 : MatchResult,
      scoreMatch q m1 = some r1 ∧ scoreMatch q m2 = some r2 ∧
      scoreMatch q m3 = some r3 ∧ scoreMatch q m4 = some r4 ∧
      r1.score = EXACT_TRIGGER_SCORE ∧
      r2.score = PARTIAL_TRIGGER_SCORE ∧
      r3.score = PARTIAL_TRIGGER_SCORE * 0.9 ∧
      0 < r4.score ∧ r4.score ≤ DESCRIPTION_MATCH_SCORE ∧
      r2.score < r1.score ∧ r3.score < r2.score ∧ r4.score < r3.score := by
  subst hqL
  subst hqW
  -- candidate 2: pinned at the partial-trigger score through every later stage
  have h2_0 : (triggerFold (pyTrim (pyLower q)) (tokenize (pyTrim (pyLower q)))
      (0, "") m2.triggers).1 = PARTIAL_TRIGGER_SCORE := by
    refine le_antisymm (le_trans (triggerFold_fst_le _ _ _ _) ?_)
      (triggerFold_fst_ge_of_sub _ _ _ _ _ ht2 ht2sub)
    rw [max_eq_right]
    norm_num [PARTIAL_TRIGGER_SCORE]
  have h2_1 : (nameStage (pyTrim (pyLower q)) (tokenize (pyTrim (pyLower q))) m2
      (triggerFold (pyTrim (pyLower q)) (tokenize (pyTrim (pyLower q)))
        (0, "") m2.triggers)).1 = PARTIAL_TRIGGER_SCORE :=
    le_max_pin h2_0 (by norm_num [NAME_MATCH_SCORE, PARTIAL_TRIGGER_SCORE])
      (nameStage_fst_mono _ _ _ _) (nameStage_fst_le _ _ _ _)
  have h2_2 : (descStage (tokenize (pyTrim (pyLower q))) m2
      (nameStage (pyTrim (pyLower q)) (tokenize (pyTrim (pyLower q))) m2
        (triggerFold (pyTrim (pyLower q)) (tokenize (pyTrim (pyLower q)))
          (0, "") m2.triggers))).1 = PARTIAL_TRIGGER_SCORE :=
    le_max_pin h2_1 (by norm_num [DESCRIPTION_MATCH_SCORE, PARTIAL_TRIGGER_SCORE])
      (descStage_fst_mono _ _ _) (descStage_fst_le _ _ _)
  have h2_3 : (tagFold (pyTrim (pyLower q))
      (descStage (tokenize (pyTrim (pyLower q))) m2
        (nameStage (pyTrim (pyLower q)) (tokenize (pyTrim (pyLower q))) m2
          (triggerFold (pyTrim (pyLower q)) (tokenize (pyTrim (pyLower q)))
            (0, "") m2.triggers))) m2.tags).1 = PARTIAL_TRIGGER_SCORE :=
    le_max_pin h2_2 (by norm_num [TAG_MATCH_SCORE, PARTIAL_TRIGGER_SCORE])
      (tagFold_fst_mono _ _ _) (tagFold_fst_le _ _ _)
  -- candidate 3: pinned at the word-subset score
  have h3_0 : (triggerFold (pyTrim (pyLower q)) (tokenize (pyTrim (pyLower q)))
      (0, "") m3.triggers).1 = PARTIAL_TRIGGER_SCORE * 0.9 := by
    refine le_antisymm (le_trans (triggerFold_fst_le_of_no_sub _ _ _ _ hm3nosub) ?_)
      (triggerFold_fst_ge_of_words _ _ _ _ _ ht3 ht3w)
    rw [max_eq_right]
    norm_num [PARTIAL_TRIGGER_SCORE]
  have h3_1 : (nameStage (pyTrim (pyLower q)) (tokenize (pyTrim (pyLower q))) m3
      (triggerFold (pyTrim (pyLower q)) (tokenize (pyTrim (pyLower q)))
        (0, "") m3.triggers)).1 = PARTIAL_TRIGGER_SCORE * 0.9 :=
    le_max_pin h3_0 (by norm_num [NAME_MATCH_SCORE, PARTIAL_TRIGGER_SCORE])
      (nameStage_fst_mono _ _ _ _) (nameStage_fst_le _ _ _ _)
  have h3_2 : (descStage (tokenize (pyTrim (pyLower q))) m3
      (nameStage (pyTrim (pyLower q)) (tokenize (pyTrim (pyLower q))) m3
        (triggerFold (pyTrim (pyLower q)) (tokenize (pyTrim (pyLower q)))
          (0, "") m3.triggers))).1 = PARTIAL_TRIGGER_SCORE * 0.9 :=
    le_max_pin h3_1 (by norm_num [DESCRIPTION_MATCH_SCORE, PARTIAL_TRIGGER_SCORE])
      (descStage_fst_mono _ _ _) (descStage_fst_le _ _ _)
  have h3_3 : (tagFold (pyTrim (pyLower q))
      (descStage (tokenize (pyTrim (pyLower q))) m3
        (nameStage (pyTrim (pyLower q)) (tokenize (pyTrim (pyLower q))) m3
          (triggerFold (pyTrim (pyLower q)) (tokenize (pyTrim (pyLower q)))
            (0, "") m3.triggers))) m3.tags).1 = PARTIAL_TRIGGER_SCORE * 0.9 :=
    le_max_pin h3_2 (by norm_num [TAG_MATCH_SCORE, PARTIAL_TRIGGER_SCORE])
      (tagFold_fst_mono _ _ _) (tagFold_fst_le _ _ _)
  -- candidate 4: only the description stage fires
  have h4_0 : triggerFold (pyTrim (pyLower q)) (tokenize (pyTrim (pyLower q)))
      (0, "") m4.triggers = (0, "") :=
    triggerFold_eq_of_none _ _ _ _ hm4trig
  have h4_1 : nameStage (pyTrim (pyLower q)) (tokenize (pyTrim (pyLower q))) m4
      ((0 : ℚ), "") = (0, "") :=
    nameStage_eq_of_none _ _ _ _ hm4name1 hm4name2
  have h4_d := descStage_fst_pos (tokenize (pyTrim (pyLower q))) m4 ((0 : ℚ), "")
    rfl hm4desc
  have h4_t : tagFold (pyTrim (pyLower q))
      (descStage (tokenize (pyTrim (pyLower q))) m4 ((0 : ℚ), "")) m4.tags =
      descStage (tokenize (pyTrim (pyLower q))) m4 ((0 : ℚ), "") :=
    tagFold_eq_of_none _ _ _ hm4tags
  refine ⟨⟨m1, EXACT_TRIGGER_SCORE, "exact trigger: " ++ t1⟩,
    ⟨m2, PARTIAL_TRIGGER_SCORE, (tagFold (pyTrim (pyLower q))
      (descStage (tokenize (pyTrim (pyLower q))) m2
        (nameStage (pyTrim (pyLower q)) (tokenize (pyTrim (pyLower q))) m2
          (triggerFold (pyTrim (pyLower q)) (tokenize (pyTrim (pyLower q)))
            (0, "") m2.triggers))) m2.tags).2⟩,
    ⟨m3, PARTIAL_TRIGGER_SCORE * 0.9, (tagFold (pyTrim (pyLower q))
      (descStage (tokenize (pyTrim (pyLower q))) m3
        (nameStage (pyTrim (pyLower q)) (tokenize (pyTrim (pyLower q))) m3
          (triggerFold (pyTrim (pyLower q)) (tokenize (pyTrim (pyLower q)))
            (0, "") m3.triggers))) m3.tags).2⟩,
    ⟨m4, (descStage (tokenize (pyTrim (pyLower q))) m4 ((0 : ℚ), "")).1,
      (descStage (tokenize (pyTrim (pyLower q))) m4 ((0 : ℚ), "")).2⟩,
    ?_, ?_, ?_, ?_, rfl, rfl, rfl, h4_d.1, h4_d.2, ?_, ?_, ?_⟩
  · simp only [scoreMatch, hm1]
  · simp only [scoreMatch, hm2none]
    rw [if_pos (by rw [h2_3]; norm_num [PARTIAL_TRIGGER_SCORE])]
    rw [← h2_3]
  · simp only [scoreMatch, hm3none]
    rw [if_pos (by rw [h3_3]; norm_num [PARTIAL_TRIGGER_SCORE])]
    rw [← h3_3]
  · simp only [scoreMatch, hm4none]
    rw [h4_0, h4_1, h4_t]
    rw [if_pos h4_d.1]
  · norm_num [PARTIAL_TRIGGER_SCORE, EXACT_TRIGGER_SCORE]
  · norm_num [PARTIAL_TRIGGER_SCORE]
  · refine lt_of_le_of_lt h4_d.2 ?_
    norm_num [DESCRIPTION_MATCH_SCORE, PARTIAL_TRIGGER_SCORE]

/-- Witness for C4 at the query `"draw chart"` against the four tier
candidates. -/
theorem c4_matcher_tier_ordering_witness :
    ∃ r1 r2 r3 r4 : MatchResult,
      scoreMatch "draw chart" tierExact = some r1 ∧
      scoreMatch "draw chart" tierSub = some r2 ∧
      scoreMatch "draw chart" tierWords = some r3 ∧
      scoreMatch "draw chart" tierDesc = some r4 ∧
      r1.score = EXACT_TRIGGER_SCORE ∧
      r2.score = PARTIAL_TRIGGER_SCORE ∧
      r3.score = PARTIAL_TRIGGER_SCORE * 0.9 ∧
      0 < r4.score ∧ r4.score ≤ DESCRIPTION_MATCH_SCORE ∧
      r2.score < r1.score ∧ r3.score < r2.score ∧ r4.score < r3.score :=
  c4_matcher_tier_ordering "draw chart" tierExact tierSub tierWords tierDesc
    "draw chart" "chart" "chart draw" "draw chart" ["draw", "chart"]
    (by decide) (by decide) (by decide) (by decide) (by decide) (by decide)
    (by decide) (by decide) (by decide) (by decide) (by decide) (by decide)
    (by decide) (by decide) (by decide) (by decide)

end OpenSkills
